import Mathlib

/-!
Verification of the veloread core against its specification.

The development shallowly embeds the TypeScript source:
* `src/parsing/tokenize.ts` — `normalizeText`, `tokenizeSegment`, `tokenize`,
  `tokenizeLargeText` (the async variant is modelled by its pure token output;
  the `onProgress` callback and `await idle()` yields do not affect the tokens).
* `src/reader/chapters.ts` — `normalizeChapters`, `findChapterIndex`.
* `src/reader/usePlayback.ts` — `computeDelayMs`.
* `src/storage/index.ts` — `saveTokenChunks`, `loadTokenChunk`, `tokenChunkKey`.
* `src/components/OrpWord.tsx` — `getDeterministicOrpSize`.
* `ReaderScreen` — `resolveToken` over the session's chunk cache.

Modelling conventions:
* JavaScript numbers are modelled exactly: integer-valued quantities by `Int`
  or `Nat`, fractional arithmetic (delays, font sizes) by `ℚ`; `NaN`,
  `undefined` and non-finite values by `Option` where the code tests for them.
* Strings are processed as `List Char`; the Unicode classes `\p{L}\p{N}` of
  the source regexes are modelled by their ASCII restriction
  (`Char.isAlpha || Char.isDigit`); every other character class of the
  source regexes is a small explicit set and is embedded exactly.
* JavaScript regex matching with the `/gu` flags is embedded as a scanner
  that at each position skips whitespace (no token can start on `\s`) and
  otherwise takes the leftmost greedy alternative, which for the token
  grammar in the source is deterministic because the character classes of
  adjacent regex pieces are disjoint.
-/

/-! ### Character classes of the source regexes -/

/-- Characters matched by JavaScript `\s` (also the set trimmed by
`String.prototype.trim`). -/
def jsSpaceChars : List Char :=
  ['\t', '\n', '\u000B', '\u000C', '\r', ' ', '\u00A0', '\u1680',
   '\u2000', '\u2001', '\u2002', '\u2003', '\u2004', '\u2005', '\u2006',
   '\u2007', '\u2008', '\u2009', '\u200A', '\u2028', '\u2029', '\u202F',
   '\u205F', '\u3000', '\uFEFF']

/-- JavaScript whitespace (`\s`). -/
def isJsSpace (c : Char) : Bool := jsSpaceChars.contains c

/-- The class `[\p{L}\p{N}]` of the source regexes, modelled by its ASCII
restriction (letters and digits). -/
def isWordChar (c : Char) : Bool := c.isAlpha || c.isDigit

/-- The compound-word joiner class `[\-’']` of `TOKEN_REGEX`. -/
def isJoiner (c : Char) : Bool := c = '-' || c = '’' || c = '\''

/-- The trailing sentence-punctuation class `[.,!?;:…]` of `TOKEN_REGEX`. -/
def isPunctClose (c : Char) : Bool :=
  c = '.' || c = ',' || c = '!' || c = '?' || c = ';' || c = ':' || c = '…'

/-- The trailing closing-bracket/quote class `[”"')\]}»]` of `TOKEN_REGEX`. -/
def isCloser (c : Char) : Bool :=
  c = '”' || c = '"' || c = '\'' || c = ')' || c = ']' || c = '}' || c = '»'

/-- The opening-bracket/quote class `[([{“"«]` of `TOKEN_REGEX`. -/
def isOpener (c : Char) : Bool :=
  c = '(' || c = '[' || c = '{' || c = '“' || c = '"' || c = '«'

/-- The closing-bracket/quote class `[)"'\]}”»]` used by the pause regexes in
`computeDelayMs` (same set of characters as `isCloser`). -/
def isDelayCloser (c : Char) : Bool :=
  c = ')' || c = '"' || c = '\'' || c = ']' || c = '}' || c = '”' || c = '»'

/-- JavaScript `String.prototype.trim`: drop leading and trailing `\s`. -/
def jsTrim (l : List Char) : List Char :=
  ((l.dropWhile isJsSpace).reverse.dropWhile isJsSpace).reverse

/-! ### Playback scheduler: `computeDelayMs` (src/reader/usePlayback.ts)

The regex test `/[;,:]+[)"'\]}”»]*$/u.test(token)` holds exactly when, after
removing the maximal run of trailing closing brackets/quotes, the token ends
in one of `; , :` (the punctuation characters are not closers, so the
closers-run of any successful match is the maximal one); likewise for
`/[.!?]+[)"'\]}”»]*$/u`.  The embedding uses that deterministic form. -/

/-- Does the token end, after its trailing closers, in a character of `cls`? -/
def endsAfterClosers (cls : Char → Bool) (t : List Char) : Bool :=
  match t.reverse.dropWhile isDelayCloser with
  | [] => false
  | c :: _ => cls c

/-- Embedding of `hardPauseToken.test` from `computeDelayMs`. -/
def hardPauseTest (t : List Char) : Bool :=
  endsAfterClosers (fun c => c = '.' || c = '!' || c = '?') t

/-- Embedding of `softPauseToken.test` from `computeDelayMs`. -/
def softPauseTest (t : List Char) : Bool :=
  endsAfterClosers (fun c => c = ';' || c = ',' || c = ':') t

/-- Embedding of `computeDelayMs` (src/reader/usePlayback.ts).  The
`coreWord` is the token with every character outside `\p{L}\p{N}` removed
(`token.replace(/[^\p{L}\p{N}]+/gu, '')`). -/
def computeDelayMs (token : String) (wpm : ℚ) (punctuationPauses : Bool) : ℚ :=
  let baseMs := 60000 / max 1 wpm
  if punctuationPauses = false then baseMs
  else
    let coreWord := token.data.filter isWordChar
    let multiplier : ℚ :=
      (if token = "\n" then 1 + 1
       else if hardPauseTest token.data then 1 + 7/10
       else if softPauseTest token.data then 1 + 3/10
       else 1)
      + (if 12 < coreWord.length then 1/10 else 0)
    baseMs * multiplier

/-! ### ORP layout: `getDeterministicOrpSize` (src/components/OrpWord.tsx) -/

/-- Embedding of `getDeterministicOrpSize`.  `maxWidth = none` models the
`undefined` argument (`!maxWidth` is also true for width `0`, covered by the
`w ≤ 0` test since `0 ≤ 0`). -/
def getDeterministicOrpSize (baseSize : ℚ) (maxWidth : Option ℚ)
    (leftLength rightLength : Nat) : ℚ :=
  match maxWidth with
  | none => baseSize
  | some w =>
    if w ≤ 0 then baseSize
    else
      let glyphWidthFactor : ℚ := 62/100
      let leftLimit := w / (glyphWidthFactor * (2 * leftLength + 1))
      let rightLimit := w / (glyphWidthFactor * (2 * rightLength + 1))
      let fitted : ℤ := ⌊min baseSize (min leftLimit rightLimit)⌋
      max 24 (min baseSize (fitted : ℚ))

/-! ### Chapter index (src/reader/chapters.ts) -/

/-- The `ChapterMeta` record of `src/types.ts`.  The numeric fields are
`Option Int`: `none` models a `NaN`/`undefined`/non-finite JavaScript number
(which `normalizeChapters` tests with `Number.isFinite`), `some n` a finite
integer value (`Math.floor` is then the identity). -/
structure ChapterMeta where
  title : String
  startToken : Option Int
  endToken : Option Int
deriving DecidableEq, Repr

/-- The intermediate `{title, startToken, endToken}` record built by the map
step of `normalizeChapters`; its numeric fields are always finite. -/
structure SortedChapter where
  title : String
  startToken : Int
  endToken : Int
deriving DecidableEq, Repr

/-- JavaScript `String.prototype.trim` on `String`. -/
def jsTrimStr (s : String) : String := ⟨jsTrim s.data⟩

/-- The map/filter step of `normalizeChapters`: drop a chapter whose
`startToken` is not finite, clamp `startToken` to `[0, tokenCount-1]` and
`endToken` to `[0, tokenCount]`, defaulting a non-finite `endToken` to
`tokenCount`. -/
def clampChapter (tokenCount : Int) (c : ChapterMeta) : Option SortedChapter :=
  match c.startToken with
  | none => none
  | some rawStart =>
    some { title := c.title
           startToken := max 0 (min (tokenCount - 1) rawStart)
           endToken :=
             match c.endToken with
             | some rawEnd => max 0 (min tokenCount rawEnd)
             | none => tokenCount }

/-- Insertion step of a stable insertion sort by `startToken`. -/
def insertChapter (c : SortedChapter) : List SortedChapter → List SortedChapter
  | [] => [c]
  | d :: rest =>
    if c.startToken ≤ d.startToken then c :: d :: rest
    else d :: insertChapter c rest

/-- The `.sort((a, b) => a.startToken - b.startToken)` step of
`normalizeChapters`, modelled by a stable insertion sort (ES2019
`Array.prototype.sort` is stable, and the comparator orders by
`startToken`). -/
def sortChapters : List SortedChapter → List SortedChapter
  | [] => []
  | c :: rest => insertChapter c (sortChapters rest)

/-- The final loop of `normalizeChapters`.  `lastStart` is the `startToken`
of the last chapter pushed onto `normalized` (`none` when `normalized` is
still empty) and `keptCount` is `normalized.length`.  `chapter.endToken ||
fallbackEnd` takes the fallback exactly when the clamped `endToken` is `0`
(the only falsy value it can have); the fallback is the `startToken` of the
next entry of the sorted array (skipped duplicates included), or
`tokenCount` at the end. -/
def fillChapters (tokenCount : Int) :
    List SortedChapter → Option Int → Nat → List ChapterMeta
  | [], _, _ => []
  | c :: rest, lastStart, keptCount =>
    if lastStart = some c.startToken then
      fillChapters tokenCount rest lastStart keptCount
    else
      let fallbackEnd : Int :=
        match rest with
        | [] => tokenCount
        | next :: _ => next.startToken
      let safeEnd := max (c.startToken + 1)
        (min tokenCount (if c.endToken = 0 then fallbackEnd else c.endToken))
      let trimmed := jsTrimStr c.title
      let title := if trimmed = "" then "Chapter " ++ Nat.repr (keptCount + 1) else trimmed
      { title := title, startToken := some c.startToken, endToken := some safeEnd }
        :: fillChapters tokenCount rest (some c.startToken) (keptCount + 1)

/-- Embedding of `normalizeChapters` (src/reader/chapters.ts). -/
def normalizeChapters (chapters : List ChapterMeta) (tokenCount : Int) :
    List ChapterMeta :=
  if chapters = [] ∨ tokenCount ≤ 0 then []
  else
    fillChapters tokenCount
      (sortChapters (chapters.filterMap (clampChapter tokenCount))) none 0

/-- The comparison `chapters[mid].startToken <= tokenIndex` of
`findChapterIndex`: an out-of-range access or a non-finite `startToken`
compares false in JavaScript. -/
def chapterLeAt (chapters : List ChapterMeta) (i : Nat) (tokenIndex : Int) : Bool :=
  match chapters.get? i with
  | some c =>
    match c.startToken with
    | some s => decide (s ≤ tokenIndex)
    | none => false
  | none => false

/-- The `while (low <= high)` loop of `findChapterIndex`.  The loop is made
structural by a fuel argument; every iteration strictly shrinks the window
`[low, high]`, so `chapters.length` fuel always suffices from the entry
point (the invariant `high + 1 - low ≤ fuel` is maintained by
`findLoop_invariant` below).  `(low + high) / 2` has nonnegative operands
at every call, where every integer-division convention agrees with
`Math.floor`. -/
def findLoop (chapters : List ChapterMeta) (tokenIndex : Int) :
    Nat → Int → Int → Int → Int
  | 0, _, _, best => best
  | fuel + 1, low, high, best =>
    if low ≤ high then
      let mid := (low + high) / 2
      if chapterLeAt chapters mid.toNat tokenIndex then
        findLoop chapters tokenIndex fuel (mid + 1) high mid
      else
        findLoop chapters tokenIndex fuel low (mid - 1) best
    else best

/-- Embedding of `findChapterIndex` (src/reader/chapters.ts). -/
def findChapterIndex (chapters : List ChapterMeta) (tokenIndex : Int) : Int :=
  if chapters.length = 0 then -1
  else findLoop chapters tokenIndex chapters.length 0 (chapters.length - 1) 0

/-! ### Chunked token store (src/storage/index.ts)

The AsyncStorage collaborator is an opaque string-keyed store.  A stored
string is modelled by its `JSON.parse` result: the platform `JSON`
codec satisfies `JSON.parse(JSON.stringify(v))` = `v` for the values the
store writes, so `JSON.stringify(chunk)` is modelled by the `Json` value the
chunk denotes, and a corrupt record by `malformed`. -/

/-- A JSON value (numbers restricted to the integers, which covers every
value this program stores). -/
inductive Json where
  | null
  | bool (b : Bool)
  | num (n : Int)
  | str (s : String)
  | arr (elems : List Json)
  | obj (fields : List (String × Json))

/-- A record of the key/value store, modelled by its `JSON.parse` result:
`json v` is a record accepted by `JSON.parse` with result `v`; `malformed`
is a record `JSON.parse` throws on.  (The empty string, falsy in the
`if (!raw)` guards, is covered by `malformed`: `JSON.parse("")` throws, and
both paths return `null`.) -/
inductive RawDoc where
  | json (v : Json)
  | malformed

/-- The state of the AsyncStorage collaborator. -/
def Store := String → Option RawDoc

/-- `AsyncStorage.setItem`. -/
def setItem (store : Store) (key : String) (val : RawDoc) : Store :=
  fun k => if k = key then some val else store k

/-- Modelled from the spec: the constant `TOKEN_CHUNK_PREFIX` lives in
`src/storage/keys.ts`, which is not in the source tree; §6 of the spec gives
the per-book-per-chunk key shape `tokenchunk:{bookId}_{chunkIndex}`. -/
def tokenChunkKeyStem : String := "tokenchunk:"

/-- Embedding of `tokenChunkKey`. -/
def tokenChunkKey (bookId : String) (chunkIndex : Nat) : String :=
  tokenChunkKeyStem ++ bookId ++ "_" ++ Nat.repr chunkIndex

/-- Embedding of `saveTokenChunks`: writes chunk `i` (the slice
`tokens.slice(i*chunkSize, i*chunkSize + chunkSize)`, serialized as a JSON
string array) under its chunk key for `i < totalChunks`, and returns the
updated store with `{chunkSize, chunkCount}`.  For `chunkSize ≥ 1`,
`Math.ceil(tokens.length / chunkSize)` is
`(tokens.length + chunkSize - 1) / chunkSize` in natural division
(`chunkSize = 0` makes the source loop diverge and is outside every claim). -/
def saveTokenChunks (store : Store) (bookId : String) (tokens : List String)
    (chunkSize : Nat) : Store × Nat × Nat :=
  let totalChunks := (tokens.length + chunkSize - 1) / chunkSize
  let finalStore := (List.range totalChunks).foldl
    (fun st chunkIndex =>
      setItem st (tokenChunkKey bookId chunkIndex)
        (RawDoc.json (Json.arr
          (((tokens.drop (chunkIndex * chunkSize)).take chunkSize).map Json.str))))
    store
  (finalStore, chunkSize, totalChunks)

/-- Embedding of `loadTokenChunk`: a missing record or one that
`JSON.parse` throws on gives `null`; otherwise the parse result is returned
as-is (the `as string[]` cast in the source is unchecked, so a wrong-shaped
JSON value is returned, not rejected). -/
def loadTokenChunk (store : Store) (bookId : String) (chunkIndex : Nat) :
    Option Json :=
  match store (tokenChunkKey bookId chunkIndex) with
  | none => none
  | some RawDoc.malformed => none
  | some (RawDoc.json v) => some v

/-! ### Reader session: `resolveToken` (ReaderScreen) -/

/-- Source kind of `src/types.ts`. -/
inductive SourceType where
  | txt
  | epub
deriving DecidableEq, Repr

/-- The `BookMeta` record of `src/types.ts`. -/
structure BookMeta where
  id : String
  title : String
  sourceType : SourceType
  createdAt : Int
  updatedAt : Int
  textLength : Int
  tokenCount : Int
  chunkSize : Int
  chunkCount : Int
  preview : String
  chapters : Option (List ChapterMeta) := none
  lastOpenedAt : Option Int := none
deriving DecidableEq

/-- The reader-session state that `resolveToken` reads: the active book
(`bookRef.current`, `none` before a book is loaded) and the chunk cache
(`chunkCacheRef.current`, a `Map<number, string[]>` in insertion order). -/
structure ReaderSession where
  bookRef : Option BookMeta
  chunkCache : List (Int × List String)
deriving DecidableEq

/-- `Map.prototype.get` on the modelled chunk cache. -/
def cacheGet (cache : List (Int × List String)) (k : Int) : Option (List String) :=
  match cache.find? (fun e => e.1 = k) with
  | some e => some e.2
  | none => none

/-- Embedding of `resolveToken` (ReaderScreen).  The source only reads
`bookRef.current` and `chunkCacheRef.current` and calls no storage API, so
the embedding threads the session state through unchanged;
`chunk[tokenIndex % chunkSize] ?? null` is `List.get?`.  For the in-range
(nonnegative) index and a positive `chunkSize`,
`Math.floor(tokenIndex / chunkSize)` and `tokenIndex % chunkSize` agree
with `Int` division and modulus. -/
def resolveToken (s : ReaderSession) (tokenIndex : Int) :
    Option String × ReaderSession :=
  match s.bookRef with
  | none => (none, s)
  | some activeBook =>
    if tokenIndex < 0 ∨ activeBook.tokenCount ≤ tokenIndex then (none, s)
    else
      let chunkIndex := tokenIndex / activeBook.chunkSize
      match cacheGet s.chunkCache chunkIndex with
      | none => (none, s)
      | some chunk => (chunk.get? (tokenIndex % activeBook.chunkSize).toNat, s)

/-! ### Tokenizer (src/parsing/tokenize.ts) -/

/-- The replace `/\r\n?/g → "\n"` of `normalizeText`: each `\r\n` pair and
each lone `\r` becomes one `\n`. -/
def crlfToLf : List Char → List Char
  | [] => []
  | '\r' :: '\n' :: rest => '\n' :: crlfToLf rest
  | '\r' :: rest => '\n' :: crlfToLf rest
  | c :: rest => c :: crlfToLf rest

/-- Generic single-pass replacement of maximal runs of characters satisfying
`p`: `n` counts the pending run, and `emit n` is the replacement text for a
maximal run of length `n` (`emit 0 = []` for all uses below).  This is how a
global regex replace of `p`-runs operates. -/
def runGo (p : Char → Bool) (emit : Nat → List Char) : Nat → List Char → List Char
  | n, [] => emit n
  | n, c :: rest =>
    if p c then runGo p emit (n + 1) rest
    else emit n ++ c :: runGo p emit 0 rest

/-- The horizontal-whitespace class `[\t\f\v ]` of `normalizeText`. -/
def isHorizWs (c : Char) : Bool := c = '\t' || c = '\u000C' || c = '\u000B' || c = ' '

/-- The replace `/[\t\f\v ]+/g → " "` of `normalizeText`. -/
def collapseHorizWs (l : List Char) : List Char :=
  runGo isHorizWs (fun n => if n = 0 then [] else [' ']) 0 l

/-- The replace `/\n{3,}/g → "\n\n"` of `normalizeText`. -/
def collapseNl3 (l : List Char) : List Char :=
  runGo (fun c => c = '\n') (fun n => if 3 ≤ n then ['\n', '\n'] else List.replicate n '\n') 0 l

/-- The replace `/\n{2,}/g → " \n "` of `tokenizeSegment`, with the pending
newline-run count made explicit. -/
def collapseNl2Go (n : Nat) (l : List Char) : List Char :=
  runGo (fun c => c = '\n') (fun k => if 2 ≤ k then [' ', '\n', ' '] else List.replicate k '\n') n l

/-- The replace `/\n{2,}/g → " \n "` of `tokenizeSegment`. -/
def collapseNl2 (l : List Char) : List Char := collapseNl2Go 0 l

/-- The replace `/\n/g → " "` of `tokenizeSegment`. -/
def nlToSpace (l : List Char) : List Char :=
  l.map fun c => if c = '\n' then ' ' else c

/-- Embedding of `normalizeText`. -/
def normalizeText (l : List Char) : List Char :=
  jsTrim (collapseNl3 (collapseHorizWs (crlfToLf l)))

/-- The compound-word part `[\p{L}\p{N}]+(?:[\-’'][\p{L}\p{N}]+)*` of
`TOKEN_REGEX`: the maximal prefix consisting of word characters and of
joiners each immediately followed by a word character (regex backtracking
reduces to this scan because the word, joiner and following classes are
disjoint).  Returns the matched prefix and the rest. -/
def takeCompound : List Char → List Char × List Char
  | [] => ([], [])
  | c :: rest =>
    if isWordChar c then
      let next := takeCompound rest
      (c :: next.1, next.2)
    else if isJoiner c then
      match rest with
      | [] => ([], [c])
      | r1 :: rest1 =>
        if isWordChar r1 then
          let next := takeCompound rest1
          (c :: r1 :: next.1, next.2)
        else ([], c :: rest)
    else ([], c :: rest)

/-- One match of `TOKEN_REGEX` starting at a non-whitespace character `c`
followed by `rest`: the first alternative (compound word + optional
sentence-punctuation run + optional closers run) when `c` is a word
character, the opening-brackets run when `c` opens, and the single-character
fallback `[^\s]` otherwise.  Returns the token and the remaining input. -/
def matchToken (c : Char) (rest : List Char) : List Char × List Char :=
  if isWordChar c then
    let w := takeCompound (c :: rest)
    let p := w.2.takeWhile isPunctClose
    let r2 := w.2.dropWhile isPunctClose
    let cl := r2.takeWhile isCloser
    let r3 := r2.dropWhile isCloser
    (w.1 ++ p ++ cl, r3)
  else if isOpener c then
    ((c :: rest).takeWhile isOpener, (c :: rest).dropWhile isOpener)
  else ([c], rest)

/-- Fueled global scan of `TOKEN_REGEX` (`prepared.match(TOKEN_REGEX)`):
whitespace characters start no match and are skipped; any other character
starts the match taken by `matchToken`.  Every step strictly shrinks the
input, so `l.length` fuel suffices (`lexF_fuel` below); the fuel keeps the
recursion structural so that terms compute by kernel reduction. -/
def lexF : Nat → List Char → List (List Char)
  | 0, _ => []
  | _, [] => []
  | fuel + 1, c :: rest =>
    if isJsSpace c then lexF fuel rest
    else
      let m := matchToken c rest
      m.1 :: lexF fuel m.2

/-- Global scan of `TOKEN_REGEX` over a whole input. -/
def lex (l : List Char) : List (List Char) := lexF l.length l

/-- Embedding of `tokenizeSegment` (token lists as `List Char`). -/
def tokenizeSegmentCore (segment : List Char) : List (List Char) :=
  let prepared := jsTrim (nlToSpace (collapseNl2 segment))
  if prepared = [] then [] else lex prepared

/-- Embedding of `tokenize` (token lists as `List Char`). -/
def tokenizeCore (text : List Char) : List (List Char) :=
  tokenizeSegmentCore (normalizeText text)

/-- JavaScript `normalized.split(/\n\n+/)` with the pending newline-run count
made explicit: `splitGo n l` is the split of `replicate n '\n' ++ l` where
the run of `n` newlines is known not to be preceded by a newline. -/
def splitGo : Nat → List Char → List (List Char)
  | n, [] => if 2 ≤ n then [[], []] else [List.replicate n '\n']
  | n, c :: rest =>
    if c = '\n' then splitGo (n + 1) rest
    else
      match splitGo 0 rest with
      | [] => []
      | p :: ps =>
        if 2 ≤ n then [] :: (c :: p) :: ps
        else (List.replicate n '\n' ++ c :: p) :: ps

/-- The `normalized.split(/\n\n+/)` step of `tokenizeLargeText`. -/
def splitParas (l : List Char) : List (List Char) := splitGo 0 l

/-- Joining paragraph pieces with the replacement text `" \n "`: the shape of
the `collapseNl2` output in terms of the `splitParas` pieces. -/
def joinSepNl : List (List Char) → List Char
  | [] => []
  | [p] => p
  | p :: ps => p ++ [' ', '\n', ' '] ++ joinSepNl ps

/-- The paragraph loop of `tokenizeLargeText`: push each paragraph's tokens
and one `"\n"` marker token after every paragraph but the last
(`if (i < paragraphs.length - 1) tokens.push('\n')`). -/
def joinWithMarkers : List (List (List Char)) → List (List Char)
  | [] => []
  | [b] => b
  | b :: rest => b ++ [['\n']] ++ joinWithMarkers rest

/-- Embedding of `tokenizeLargeText` by its pure token output (token lists
as `List Char`): tokenize each paragraph and push one `"\n"` marker between
consecutive paragraphs.  The `onProgress` reports and `await idle()` yields
of the source do not affect the produced tokens. -/
def tokenizeLargeTextCore (text : List Char) : List (List Char) :=
  let normalized := normalizeText text
  if normalized = [] then []
  else joinWithMarkers ((splitParas normalized).map tokenizeSegmentCore)

/-- Embedding of `tokenize` on `String`. -/
def tokenize (text : String) : List String :=
  (tokenizeCore text.data).map fun t => ⟨t⟩

/-- Embedding of the token output of `tokenizeLargeText` on `String`. -/
def tokenizeLargeText (text : String) : List String :=
  (tokenizeLargeTextCore text.data).map fun t => ⟨t⟩

/-! ### General helper lemmas -/

/-- Dropping a fully-satisfying block on the left of `dropWhile`. -/
theorem dropWhile_append_all {p : Char → Bool} {a b : List Char}
    (h : ∀ x ∈ a, p x = true) :
    (a ++ b).dropWhile p = b.dropWhile p := by
  induction a with
  | nil => rfl
  | cons c a ih =>
    have hc : p c = true := h c (by simp)
    simp only [List.cons_append, List.dropWhile_cons, hc, if_true]
    exact ih fun x hx => h x (by simp [hx])

/-! ### Claim C4: `computeDelayMs` -/

/-- Characterization of the anchored pause-regex tests: the test succeeds
exactly when the token ends with a character of `cls` followed only by
closing brackets/quotes. -/
theorem endsAfterClosers_iff (cls : Char → Bool) (t : List Char)
    (hdisj : ∀ c, cls c = true → isDelayCloser c = false) :
    endsAfterClosers cls t = true ↔
      ∃ u c cl, t = u ++ c :: cl ∧ cls c = true ∧ ∀ x ∈ cl, isDelayCloser x = true := by
  unfold endsAfterClosers
  constructor
  · intro h
    cases hd : t.reverse.dropWhile isDelayCloser with
    | nil => rw [hd] at h; exact absurd h (by simp)
    | cons c u2 =>
      rw [hd] at h
      refine ⟨u2.reverse, c, (t.reverse.takeWhile isDelayCloser).reverse, ?_, h, ?_⟩
      · have htd := List.takeWhile_append_dropWhile isDelayCloser t.reverse
        rw [hd] at htd
        calc t = t.reverse.reverse := (List.reverse_reverse t).symm
          _ = (t.reverse.takeWhile isDelayCloser ++ c :: u2).reverse := by rw [htd]
          _ = u2.reverse ++ c :: (t.reverse.takeWhile isDelayCloser).reverse := by
                simp [List.reverse_append]
      · intro x hx
        exact List.mem_takeWhile_imp (List.mem_reverse.mp hx)
  · rintro ⟨u, c, cl, rfl, hc, hcl⟩
    have h1 : (u ++ c :: cl).reverse = cl.reverse ++ c :: u.reverse := by simp
    have h2 : (cl.reverse ++ c :: u.reverse).dropWhile isDelayCloser = c :: u.reverse := by
      rw [dropWhile_append_all fun x hx => hcl x (List.mem_reverse.mp hx)]
      rw [List.dropWhile_cons, hdisj c hc]
      simp
    rw [h1, h2]
    exact hc

/-- Claim C4: with punctuation pauses disabled `computeDelayMs` returns the
base delay `60000 / max 1 wpm`; with them enabled it multiplies the base by
`1` plus `1` for the paragraph marker, else `0.7`/`0.3` for a token ending
(after trailing closing brackets/quotes) in a sentence-terminal/soft-pause
mark, plus independently `0.1` when the token's alphanumeric core exceeds 12
characters; and the three concrete examples evaluate to 340, 400, 220. -/
theorem computeDelayMs_spec (token : String) (wpm : ℚ) (hwpm : 0 < wpm) :
    computeDelayMs token wpm false = 60000 / max 1 wpm ∧
    computeDelayMs token wpm true =
      (60000 / max 1 wpm) *
        (1 +
          (if token = "\n" then 1
           else if hardPauseTest token.data then 7/10
           else if softPauseTest token.data then 3/10
           else 0) +
          (if 12 < (token.data.filter isWordChar).length then 1/10 else 0)) ∧
    (hardPauseTest token.data = true ↔
      ∃ u c cl, token.data = u ++ c :: cl ∧ (c = '.' ∨ c = '!' ∨ c = '?') ∧
        ∀ x ∈ cl, isDelayCloser x = true) ∧
    (softPauseTest token.data = true ↔
      ∃ u c cl, token.data = u ++ c :: cl ∧ (c = ';' ∨ c = ',' ∨ c = ':') ∧
        ∀ x ∈ cl, isDelayCloser x = true) ∧
    computeDelayMs "word!" 300 true = 340 ∧
    computeDelayMs "\n" 300 true = 400 ∧
    computeDelayMs "characteristically" 300 true = 220 := by
  refine ⟨by simp [computeDelayMs], ?_, ?_, ?_, ?_, ?_, ?_⟩
  · simp only [computeDelayMs, Bool.true_eq_false, if_false]
    split_ifs <;> ring
  · rw [hardPauseTest, endsAfterClosers_iff _ _ (fun c hc => by
      simp only [Bool.or_eq_true, decide_eq_true_eq] at hc
      rcases hc with (rfl | rfl) | rfl <;> rfl)]
    constructor
    · rintro ⟨u, c, cl, h1, h2, h3⟩
      exact ⟨u, c, cl, h1, by revert h2; simp [Bool.or_eq_true]; tauto, h3⟩
    · rintro ⟨u, c, cl, h1, h2, h3⟩
      exact ⟨u, c, cl, h1, by revert h2; simp [Bool.or_eq_true]; tauto, h3⟩
  · rw [softPauseTest, endsAfterClosers_iff _ _ (fun c hc => by
      simp only [Bool.or_eq_true, decide_eq_true_eq] at hc
      rcases hc with (rfl | rfl) | rfl <;> rfl)]
    constructor
    · rintro ⟨u, c, cl, h1, h2, h3⟩
      exact ⟨u, c, cl, h1, by revert h2; simp [Bool.or_eq_true]; tauto, h3⟩
    · rintro ⟨u, c, cl, h1, h2, h3⟩
      exact ⟨u, c, cl, h1, by revert h2; simp [Bool.or_eq_true]; tauto, h3⟩
  · have h1 : ("word!" : String) = "\n" ↔ False := by simp
    have h2 : hardPauseTest "word!".data = true := by decide
    have h3 : (12 < (List.filter isWordChar "word!".data).length) = False := by decide
    simp only [computeDelayMs, h1, h2, h3, if_false, if_true]
    norm_num
  · have h2 : (12 < (List.filter isWordChar ("\n" : String).data).length) = False := by decide
    simp only [computeDelayMs, h2, if_false, if_true]
    norm_num
  · have h1 : ("characteristically" : String) = "\n" ↔ False := by simp
    have h2 : hardPauseTest "characteristically".data = false := by decide
    have h2b : softPauseTest "characteristically".data = false := by decide
    have h3 : (12 < (List.filter isWordChar "characteristically".data).length) = True := by decide
    simp only [computeDelayMs, h1, h2, h2b, h3, if_false, if_true, Bool.false_eq_true]
    norm_num

/-- Witness for `computeDelayMs_spec` at `token = "word!"`, `wpm = 300`. -/
theorem computeDelayMs_spec_witness :
    (0 : ℚ) < 300 ∧ computeDelayMs "word!" 300 false = 60000 / max 1 300 :=
  ⟨by norm_num, (computeDelayMs_spec "word!" 300 (by norm_num)).1⟩

/-! ### Claim C8: `getDeterministicOrpSize` -/

/-- Claim C8: with a positive maximum width the effective size is
`max 24 ⌊min baseSize leftLimit rightLimit⌋` (the inner `min baseSize fitted`
of the source is redundant because the floor never exceeds `baseSize`), and
without a maximum width the baseline is returned unchanged. -/
theorem getDeterministicOrpSize_spec (baseSize w : ℚ) (L R : Nat) (hw : 0 < w) :
    getDeterministicOrpSize baseSize (some w) L R =
      max 24 (↑⌊min baseSize
        (min (w / (62/100 * (2 * (L : ℚ) + 1))) (w / (62/100 * (2 * (R : ℚ) + 1))))⌋ : ℚ) ∧
    getDeterministicOrpSize baseSize none L R = baseSize := by
  constructor
  · show (if w ≤ 0 then baseSize else _) = _
    rw [if_neg (not_le.mpr hw)]
    have hfloor : ((⌊min baseSize
        (min (w / (62/100 * (2 * (L : ℚ) + 1))) (w / (62/100 * (2 * (R : ℚ) + 1))))⌋ : ℤ) : ℚ)
        ≤ baseSize :=
      le_trans (Int.floor_le _) (min_le_left _ _)
    simp only [min_eq_right hfloor]
  · rfl

/-- Witness for `getDeterministicOrpSize_spec` at width 100. -/
theorem getDeterministicOrpSize_spec_witness :
    (0 : ℚ) < 100 ∧ getDeterministicOrpSize 50 none 3 4 = 50 :=
  ⟨by norm_num, (getDeterministicOrpSize_spec 50 100 3 4 (by norm_num)).2⟩

/-! ### Claim C10: `resolveToken` -/

/-- Claim C10: with an active book of positive chunk size, `resolveToken`
returns, for an in-range index, the entry at `tokenIndex % chunkSize` of the
cached chunk `tokenIndex / chunkSize` (absent when that chunk is not
resident or the chunk array is too short), returns `none` for any
out-of-range index, and leaves the session (in particular the chunk cache)
unchanged; the embedding takes no store argument because the source performs
no storage reads. -/
theorem resolveToken_spec (s : ReaderSession) (book : BookMeta) (tokenIndex : Int)
    (hbook : s.bookRef = some book) (hcs : 0 < book.chunkSize) :
    (0 ≤ tokenIndex ∧ tokenIndex < book.tokenCount →
      (resolveToken s tokenIndex).1 =
        (cacheGet s.chunkCache (tokenIndex / book.chunkSize)).bind
          fun chunk => chunk.get? (tokenIndex % book.chunkSize).toNat) ∧
    ((tokenIndex < 0 ∨ book.tokenCount ≤ tokenIndex) →
      (resolveToken s tokenIndex).1 = none) ∧
    (resolveToken s tokenIndex).2 = s := by
  have hres : resolveToken s tokenIndex =
      (if tokenIndex < 0 ∨ book.tokenCount ≤ tokenIndex then (none, s)
       else
         match cacheGet s.chunkCache (tokenIndex / book.chunkSize) with
         | none => (none, s)
         | some chunk => (chunk.get? (tokenIndex % book.chunkSize).toNat, s)) := by
    unfold resolveToken
    rw [hbook]
  rw [hres]
  by_cases hrange : tokenIndex < 0 ∨ book.tokenCount ≤ tokenIndex
  · rw [if_pos hrange]
    exact ⟨fun hin => absurd hrange (by omega), fun _ => rfl, rfl⟩
  · rw [if_neg hrange]
    refine ⟨fun _ => ?_, fun h => absurd h hrange, ?_⟩
    · cases cacheGet s.chunkCache (tokenIndex / book.chunkSize) with
      | none => rfl
      | some chunk => rfl
    · cases cacheGet s.chunkCache (tokenIndex / book.chunkSize) with
      | none => rfl
      | some chunk => rfl

/-- Book record used by the witness of `resolveToken_spec`. -/
def resolveWitnessBook : BookMeta :=
  ⟨"b", "t", SourceType.txt, 0, 0, 5, 2, 2, 1, "", none, none⟩

/-- Session state used by the witness of `resolveToken_spec`. -/
def resolveWitnessSession : ReaderSession :=
  ⟨some resolveWitnessBook, [(0, ["x", "y"])]⟩

/-- Witness for `resolveToken_spec`: a session holding one cached chunk. -/
theorem resolveToken_spec_witness :
    resolveWitnessSession.bookRef = some resolveWitnessBook ∧
    (0 : Int) < resolveWitnessBook.chunkSize ∧
    (resolveToken resolveWitnessSession 1).1 =
      (cacheGet resolveWitnessSession.chunkCache ((1 : Int) / resolveWitnessBook.chunkSize)).bind
        fun chunk => chunk.get? ((1 : Int) % resolveWitnessBook.chunkSize).toNat := by
  refine ⟨rfl, by norm_num [resolveWitnessBook], ?_⟩
  exact (resolveToken_spec resolveWitnessSession resolveWitnessBook 1 rfl
    (by norm_num [resolveWitnessBook])).1 ⟨by norm_num, by norm_num [resolveWitnessBook]⟩

/-! ### Claim C9: `loadTokenChunk` error handling -/

/-- Counterexample to claim C9 as stated: a stored record that is valid JSON
but not a token array (the number `42`) is returned as-is by
`loadTokenChunk`, not turned into the absent result the claim requires. -/
theorem loadTokenChunk_nonarray_cex :
    loadTokenChunk
      (fun k => if k = tokenChunkKey "b" 0 then some (RawDoc.json (Json.num 42)) else none)
      "b" 0 = some (Json.num 42) ∧
    some (Json.num 42) ≠ (none : Option Json) := by
  exact ⟨rfl, by simp⟩

/-- Claim C9 (amended): `loadTokenChunk` never raises; a missing record and a
record on which `JSON.parse` throws both give the absent result; a record
that parses as any JSON value — a token array or not — is returned as-is
(the `as string[]` cast is unchecked). -/
theorem loadTokenChunk_total_spec (store : Store) (bookId : String) (chunkIndex : Nat) :
    (store (tokenChunkKey bookId chunkIndex) = none →
      loadTokenChunk store bookId chunkIndex = none) ∧
    (store (tokenChunkKey bookId chunkIndex) = some RawDoc.malformed →
      loadTokenChunk store bookId chunkIndex = none) ∧
    (∀ v : Json, store (tokenChunkKey bookId chunkIndex) = some (RawDoc.json v) →
      loadTokenChunk store bookId chunkIndex = some v) := by
  refine ⟨fun h => ?_, fun h => ?_, fun v h => ?_⟩ <;> · unfold loadTokenChunk; rw [h]

/-- Witness for `loadTokenChunk_total_spec` on concrete stores. -/
theorem loadTokenChunk_total_spec_witness :
    loadTokenChunk (fun _ => none) "b" 0 = none ∧
    loadTokenChunk (fun _ => some RawDoc.malformed) "b" 0 = none ∧
    loadTokenChunk (fun _ => some (RawDoc.json (Json.arr [Json.str "tok"]))) "b" 0 =
      some (Json.arr [Json.str "tok"]) :=
  ⟨(loadTokenChunk_total_spec (fun _ => none) "b" 0).1 rfl,
   (loadTokenChunk_total_spec (fun _ => some RawDoc.malformed) "b" 0).2.1 rfl,
   (loadTokenChunk_total_spec (fun _ => some (RawDoc.json (Json.arr [Json.str "tok"]))) "b" 0).2.2
     _ rfl⟩

/-! ### Chapter normalization lemmas -/

/-- Membership in `insertChapter`. -/
theorem mem_insertChapter {b c : SortedChapter} {l : List SortedChapter} :
    b ∈ insertChapter c l ↔ b = c ∨ b ∈ l := by
  induction l with
  | nil => simp [insertChapter]
  | cons d rest ih =>
    unfold insertChapter
    by_cases h : c.startToken ≤ d.startToken
    · rw [if_pos h]; simp
    · rw [if_neg h]; simp [ih]; tauto

/-- Membership in `sortChapters`. -/
theorem mem_sortChapters {b : SortedChapter} {l : List SortedChapter} :
    b ∈ sortChapters l ↔ b ∈ l := by
  induction l with
  | nil => simp [sortChapters]
  | cons c rest ih => simp [sortChapters, mem_insertChapter, ih]

/-- `insertChapter` preserves sortedness by `startToken`. -/
theorem insertChapter_pairwise {c : SortedChapter} {l : List SortedChapter}
    (h : l.Pairwise fun a b => a.startToken ≤ b.startToken) :
    (insertChapter c l).Pairwise fun a b => a.startToken ≤ b.startToken := by
  induction l with
  | nil => simp [insertChapter]
  | cons d rest ih =>
    rcases List.pairwise_cons.mp h with ⟨hd, hrest⟩
    unfold insertChapter
    by_cases hcd : c.startToken ≤ d.startToken
    · rw [if_pos hcd]
      refine List.pairwise_cons.mpr ⟨?_, h⟩
      intro b hb
      rcases List.mem_cons.mp hb with rfl | hb
      · exact hcd
      · exact le_trans hcd (hd b hb)
    · rw [if_neg hcd]
      refine List.pairwise_cons.mpr ⟨?_, ih hrest⟩
      intro b hb
      rcases mem_insertChapter.mp hb with rfl | hb
      · exact le_of_lt (lt_of_not_le hcd)
      · exact hd b hb

/-- The sort step produces a list sorted by `startToken`. -/
theorem sortChapters_pairwise (l : List SortedChapter) :
    (sortChapters l).Pairwise fun a b => a.startToken ≤ b.startToken := by
  induction l with
  | nil => simp [sortChapters]
  | cons c rest ih => exact insertChapter_pairwise ih

/-- Sorting a list already sorted by `startToken` is the identity. -/
theorem sortChapters_eq_self {l : List SortedChapter}
    (h : l.Pairwise fun a b => a.startToken ≤ b.startToken) :
    sortChapters l = l := by
  induction l with
  | nil => rfl
  | cons c rest ih =>
    rcases List.pairwise_cons.mp h with ⟨hd, hrest⟩
    show insertChapter c (sortChapters rest) = c :: rest
    rw [ih hrest]
    cases rest with
    | nil => rfl
    | cons d rest2 =>
      show (if c.startToken ≤ d.startToken then _ else _) = _
      rw [if_pos (hd d (by simp))]

/-- Range of a clamped chapter: for a positive token count, the clamped
start lies in `[0, tokenCount-1]` and the clamped end in `[0, tokenCount]`. -/
theorem clampChapter_range {tc : Int} (htc : 0 < tc) {ch : ChapterMeta}
    {c : SortedChapter} (h : clampChapter tc ch = some c) :
    0 ≤ c.startToken ∧ c.startToken ≤ tc - 1 ∧ 0 ≤ c.endToken ∧ c.endToken ≤ tc := by
  unfold clampChapter at h
  cases hst : ch.startToken with
  | none => rw [hst] at h; exact absurd h (by simp)
  | some rawStart =>
    rw [hst] at h
    cases hend : ch.endToken with
    | none =>
      rw [hend] at h
      injection h with h
      subst h
      constructor
      · exact le_max_left 0 _
      · constructor
        · simp only [max_le_iff]
          exact ⟨by omega, min_le_left _ _⟩
        · exact ⟨le_of_lt htc, le_refl tc⟩
    | some rawEnd =>
      rw [hend] at h
      injection h with h
      subst h
      refine ⟨le_max_left 0 _, ?_, le_max_left 0 _, ?_⟩
      · simp only [max_le_iff]
        exact ⟨by omega, min_le_left _ _⟩
      · simp only [max_le_iff]
        exact ⟨le_of_lt htc, min_le_left _ _⟩

/-- Every element of the sorted clamped list is in clamp range. -/
theorem sorted_clamped_range {tc : Int} (htc : 0 < tc) (chapters : List ChapterMeta)
    {c : SortedChapter}
    (h : c ∈ sortChapters (chapters.filterMap (clampChapter tc))) :
    0 ≤ c.startToken ∧ c.startToken ≤ tc - 1 ∧ 0 ≤ c.endToken ∧ c.endToken ≤ tc := by
  rcases List.mem_filterMap.mp (mem_sortChapters.mp h) with ⟨ch, _, hc⟩
  exact clampChapter_range htc hc

/-- The fallback end used by the `normalizeChapters` loop: the start of the
next entry of the sorted array, or `tokenCount` at its end. -/
def nextStartOr (tc : Int) (suf : List SortedChapter) : Int :=
  match suf with
  | [] => tc
  | nxt :: _ => nxt.startToken

/-- The effective end token the (amended) claim C3 predicts for a kept entry
`mid` whose successors in the sorted clamped array are `suf`: the clamped
declared end when it is nonzero (an absent declared end having clamped to
`tokenCount`), else the next sorted entry's start (or `tokenCount`),
bounded by `tokenCount` and forced above `startToken`. -/
def specEffectiveEnd (tc : Int) (mid : SortedChapter) (suf : List SortedChapter) : Int :=
  max (mid.startToken + 1)
    (min tc (if mid.endToken = 0 then nextStartOr tc suf else mid.endToken))

/-- Each chapter emitted by the `normalizeChapters` loop comes from an entry
`mid` of the loop's input, at a position with successors `suf`, and carries
`mid`'s start and the effective end `specEffectiveEnd tc mid suf`. -/
theorem fillChapters_mem {tc : Int} :
    ∀ {l : List SortedChapter} {lastStart : Option Int} {kept : Nat} {c : ChapterMeta},
      c ∈ fillChapters tc l lastStart kept →
      ∃ pre mid suf, l = pre ++ mid :: suf ∧
        c.startToken = some mid.startToken ∧
        c.endToken = some (specEffectiveEnd tc mid suf) := by
  intro l
  induction l with
  | nil => intro lastStart kept c h; exact absurd h (by simp [fillChapters])
  | cons d rest ih =>
    intro lastStart kept c h
    unfold fillChapters at h
    by_cases hskip : lastStart = some d.startToken
    · rw [if_pos hskip] at h
      rcases ih h with ⟨pre, mid, suf, hl, hs, he⟩
      exact ⟨d :: pre, mid, suf, by rw [hl]; rfl, hs, he⟩
    · rw [if_neg hskip] at h
      rcases List.mem_cons.mp h with rfl | h
      · refine ⟨[], d, rest, rfl, rfl, ?_⟩
        show some _ = _
        unfold specEffectiveEnd nextStartOr
        rfl
      · rcases ih h with ⟨pre, mid, suf, hl, hs, he⟩
        exact ⟨d :: pre, mid, suf, by rw [hl]; rfl, hs, he⟩

/-! ### Claim C3: `normalizeChapters` effective ends -/

/-- Counterexample to claim C3 as stated: with `tokenCount = 100` and raw
chapters `A = {start 0, end absent}` and `B = {start 50, end 200}`, the
declared-absent end of `A` clamps to `tokenCount` (not to the next chapter's
start), so `A` gets `endToken = 100 > 50 = B.startToken`: the output
intervals overlap, and `A`'s effective end is not
`max(0+1, min(100, nextStart 50)) = 50` as the claim predicts. -/
theorem normalizeChapters_overlap_cex :
    normalizeChapters [⟨"A", some 0, none⟩, ⟨"B", some 50, some 200⟩] 100 =
      [⟨"A", some 0, some 100⟩, ⟨"B", some 50, some 100⟩] ∧
    ¬((100 : Int) ≤ 50) :=
  ⟨by decide, by norm_num⟩

/-- Claim C3 (amended): each chapter produced by `normalizeChapters` comes
from an entry `mid` of the sorted clamped array with successors `suf` and has
`endToken = max(startToken+1, min(tokenCount, e))`, where `e` is the clamped
declared end when nonzero — an absent or non-finite declared end having
clamped to `tokenCount` — and otherwise the next sorted entry's `startToken`
(or `tokenCount` at the end); hence every output interval is non-empty and
ends at or before `tokenCount`, but consecutive output chapters may
overlap. -/
theorem normalizeChapters_spec (chapters : List ChapterMeta) (tc : Int) (htc : 0 < tc) :
    ∀ c ∈ normalizeChapters chapters tc,
      ∃ pre mid suf,
        sortChapters (chapters.filterMap (clampChapter tc)) = pre ++ mid :: suf ∧
        c.startToken = some mid.startToken ∧
        c.endToken = some (specEffectiveEnd tc mid suf) ∧
        0 ≤ mid.startToken ∧ mid.startToken < tc ∧
        mid.startToken < specEffectiveEnd tc mid suf ∧
        specEffectiveEnd tc mid suf ≤ tc := by
  intro c hc
  unfold normalizeChapters at hc
  by_cases hg : chapters = [] ∨ tc ≤ 0
  · rw [if_pos hg] at hc
    exact absurd hc (by simp)
  · rw [if_neg hg] at hc
    rcases fillChapters_mem hc with ⟨pre, mid, suf, hl, hs, he⟩
    have hmid : mid ∈ sortChapters (chapters.filterMap (clampChapter tc)) := by
      rw [hl]; simp
    have hrange := sorted_clamped_range htc chapters hmid
    refine ⟨pre, mid, suf, hl, hs, he, hrange.1, by omega, ?_, ?_⟩
    · have h := le_max_left (mid.startToken + 1)
        (min tc (if mid.endToken = 0 then nextStartOr tc suf else mid.endToken))
      unfold specEffectiveEnd
      omega
    · have h1 : min tc (if mid.endToken = 0 then nextStartOr tc suf else mid.endToken) ≤ tc :=
        min_le_left _ _
      have h2 : mid.startToken + 1 ≤ tc := by omega
      exact max_le h2 h1

/-- Witness for `normalizeChapters_spec` on a one-chapter list. -/
theorem normalizeChapters_spec_witness :
    (0 : Int) < 10 ∧
    ∀ c ∈ normalizeChapters [⟨"A", some 0, some 5⟩] 10,
      ∃ pre mid suf,
        sortChapters (([⟨"A", some 0, some 5⟩] : List ChapterMeta).filterMap (clampChapter 10)) =
          pre ++ mid :: suf ∧
        c.startToken = some mid.startToken ∧
        c.endToken = some (specEffectiveEnd 10 mid suf) ∧
        0 ≤ mid.startToken ∧ mid.startToken < 10 ∧
        mid.startToken < specEffectiveEnd 10 mid suf ∧
        specEffectiveEnd 10 mid suf ≤ 10 :=
  ⟨by norm_num, normalizeChapters_spec [⟨"A", some 0, some 5⟩] 10 (by norm_num)⟩

/-! ### Decimal representation of natural numbers

`normalizeChapters` default titles and the chunk keys interpolate a number
with `${...}`, i.e. `Nat.repr`.  The lemmas below characterize `Nat.repr`
through `Nat.digits` and derive that it is injective, nonempty and ends in a
digit character. -/

/-- `Nat.toDigitsCore` in base 10 with sufficient fuel, through
`Nat.digits`. -/
theorem toDigitsCore_eq_digits (f : Nat) :
    ∀ (n : Nat) (acc : List Char), n < f →
      Nat.toDigitsCore 10 f n acc =
        (if n = 0 then ['0'] else ((Nat.digits 10 n).map Nat.digitChar).reverse) ++ acc := by
  induction f with
  | zero => intro n acc h; omega
  | succ f ih =>
    intro n acc h
    show (if n / 10 = 0 then (n % 10).digitChar :: acc
          else Nat.toDigitsCore 10 f (n / 10) ((n % 10).digitChar :: acc)) = _
    by_cases h0 : n / 10 = 0
    · rw [if_pos h0]
      by_cases hn : n = 0
      · subst hn; rfl
      · have hlt : n < 10 := by omega
        rw [if_neg hn, Nat.digits_def' (by norm_num : (1 : ℕ) < 10) (Nat.pos_of_ne_zero hn), h0]
        simp [Nat.mod_eq_of_lt hlt]
    · rw [if_neg h0]
      have hn : n ≠ 0 := by
        intro hz; rw [hz] at h0; exact h0 rfl
      have hlt : n / 10 < f := by
        have := Nat.div_lt_self (Nat.pos_of_ne_zero hn) (by norm_num : 1 < 10)
        omega
      rw [ih _ _ hlt, if_neg h0,
        Nat.digits_def' (by norm_num : (1 : ℕ) < 10) (Nat.pos_of_ne_zero hn), if_neg hn]
      simp

/-- The character list of `Nat.repr` through `Nat.digits`. -/
theorem repr_data_eq (n : Nat) :
    (Nat.repr n).data =
      (if n = 0 then ['0'] else ((Nat.digits 10 n).map Nat.digitChar).reverse) := by
  show (Nat.toDigitsCore 10 (n + 1) n []).asString.data = _
  rw [toDigitsCore_eq_digits (n + 1) n [] (by omega), List.append_nil]
  rfl

/-- `Nat.digitChar` is injective below 10. -/
theorem digitChar_inj_lt {a b : Nat} (ha : a < 10) (hb : b < 10)
    (h : a.digitChar = b.digitChar) : a = b := by
  interval_cases a <;> interval_cases b <;> revert h <;> decide

/-- `Nat.digitChar` of a decimal digit is not whitespace. -/
theorem digitChar_not_space {a : Nat} (ha : a < 10) : isJsSpace a.digitChar = false := by
  interval_cases a <;> decide

/-- Mapping `Nat.digitChar` over digit lists is injective. -/
theorem map_digitChar_inj :
    ∀ {a b : List Nat}, (∀ x ∈ a, x < 10) → (∀ x ∈ b, x < 10) →
      a.map Nat.digitChar = b.map Nat.digitChar → a = b := by
  intro a
  induction a with
  | nil =>
    intro b _ _ h
    cases b with
    | nil => rfl
    | cons y ys => exact absurd h (by simp)
  | cons x xs ih =>
    intro b ha hb h
    cases b with
    | nil => exact absurd h (by simp)
    | cons y ys =>
      simp only [List.map_cons, List.cons.injEq] at h
      have hx : x = y :=
        digitChar_inj_lt (ha x (by simp)) (hb y (by simp)) h.1
      rw [hx, ih (fun z hz => ha z (by simp [hz])) (fun z hz => hb z (by simp [hz])) h.2]

/-- `Nat.repr` is injective (distinct numbers get distinct decimal
strings). -/
theorem repr_inj_nat {n m : Nat} (h : Nat.repr n = Nat.repr m) : n = m := by
  have hd : (Nat.repr n).data = (Nat.repr m).data := by rw [h]
  rw [repr_data_eq, repr_data_eq] at hd
  have hz : ∀ k : Nat, k ≠ 0 →
      ((Nat.digits 10 k).map Nat.digitChar).reverse = ['0'] → False := by
    intro k hk hrev
    have hmap : (Nat.digits 10 k).map Nat.digitChar = ['0'] := by
      have := congrArg List.reverse hrev
      simpa using this
    have hdig : Nat.digits 10 k = [0] := by
      cases hdg : Nat.digits 10 k with
      | nil => rw [hdg] at hmap; exact absurd hmap (by simp)
      | cons d rest =>
        rw [hdg] at hmap
        simp only [List.map_cons, List.cons.injEq, List.map_eq_nil_iff] at hmap
        have hd10 : d < 10 :=
          Nat.digits_lt_base (by norm_num) (by rw [hdg]; exact List.mem_cons_self d rest)
        have hd0 : d = 0 := digitChar_inj_lt hd10 (by norm_num) hmap.1
        rw [hd0, hmap.2]
    have := Nat.ofDigits_digits 10 k
    rw [hdig] at this
    simp [Nat.ofDigits] at this
    exact hk this.symm
  by_cases hn : n = 0 <;> by_cases hm : m = 0
  · rw [hn, hm]
  · rw [if_pos hn, if_neg hm] at hd
    exact absurd hd.symm (hz m hm)
  · rw [if_neg hn, if_pos hm] at hd
    exact absurd hd (hz n hn)
  · rw [if_neg hn, if_neg hm] at hd
    have h2 := congrArg List.reverse hd
    simp only [List.reverse_reverse] at h2
    have h3 := map_digitChar_inj
      (fun x hx => Nat.digits_lt_base (by norm_num) hx)
      (fun x hx => Nat.digits_lt_base (by norm_num) hx) h2
    have hn' := Nat.ofDigits_digits 10 n
    rw [h3, Nat.ofDigits_digits] at hn'
    exact hn'.symm

/-- The decimal string of a natural number ends in a digit character. -/
theorem repr_getLast_digit (n : Nat) :
    ∃ d, d < 10 ∧ (Nat.repr n).data.getLast? = some (Nat.digitChar d) := by
  rw [repr_data_eq]
  by_cases hn : n = 0
  · exact ⟨0, by norm_num, by rw [if_pos hn]; rfl⟩
  · rw [if_neg hn, List.getLast?_reverse]
    rw [Nat.digits_def' (by norm_num : (1 : ℕ) < 10) (Nat.pos_of_ne_zero hn)]
    exact ⟨n % 10, Nat.mod_lt _ (by norm_num), rfl⟩

/-- The decimal string of a natural number is nonempty. -/
theorem repr_data_ne_nil (n : Nat) : (Nat.repr n).data ≠ [] := by
  rw [repr_data_eq]
  by_cases hn : n = 0
  · rw [if_pos hn]; simp
  · rw [if_neg hn]
    simp only [ne_eq, List.reverse_eq_nil_iff, List.map_eq_nil_iff]
    exact Nat.digits_ne_nil_iff_ne_zero.mpr hn

/-! ### Fixed points of `jsTrim` -/

/-- The head of a `dropWhile` result fails the predicate. -/
theorem dropWhile_head_false (p : Char → Bool) (l : List Char) :
    ∀ c, (l.dropWhile p).head? = some c → p c = false := by
  induction l with
  | nil => simp
  | cons d rest ih =>
    intro c hc
    by_cases hd : p d
    · rw [List.dropWhile_cons, if_pos hd] at hc
      exact ih c hc
    · rw [List.dropWhile_cons, if_neg hd] at hc
      simp only [List.head?_cons, Option.some.injEq] at hc
      rw [← hc]
      exact Bool.eq_false_iff.mpr hd

/-- `dropWhile` is the identity when the head already fails the predicate. -/
theorem dropWhile_eq_self_of_head (p : Char → Bool) (l : List Char)
    (h : ∀ c, l.head? = some c → p c = false) : l.dropWhile p = l := by
  cases l with
  | nil => rfl
  | cons d rest =>
    rw [List.dropWhile_cons, if_neg]
    simp [h d rfl]

/-- A nonempty `dropWhile` result keeps the last element. -/
theorem getLast?_dropWhile (p : Char → Bool) (l : List Char)
    (h : l.dropWhile p ≠ []) : (l.dropWhile p).getLast? = l.getLast? := by
  induction l with
  | nil => rfl
  | cons d rest ih =>
    by_cases hd : p d
    · rw [List.dropWhile_cons, if_pos hd] at h ⊢
      have hrest : rest ≠ [] := by
        intro hz; rw [hz] at h; exact h rfl
      rw [ih h, List.getLast?_cons]
      cases hr : rest.getLast? with
      | none => exact absurd (List.getLast?_eq_none_iff.mp hr) hrest
      | some x => rfl
    · rw [List.dropWhile_cons, if_neg hd]

/-- `jsTrim` of a string with non-whitespace ends is the identity. -/
theorem jsTrim_eq_self {l : List Char}
    (h1 : ∀ c, l.head? = some c → isJsSpace c = false)
    (h2 : ∀ c, l.getLast? = some c → isJsSpace c = false) :
    jsTrim l = l := by
  unfold jsTrim
  rw [dropWhile_eq_self_of_head _ _ h1]
  rw [dropWhile_eq_self_of_head _ _ fun c hc =>
    h2 c (by rwa [List.head?_reverse] at hc)]
  exact List.reverse_reverse l

/-- The head of a trimmed string is not whitespace. -/
theorem jsTrim_head_not_space (l : List Char) :
    ∀ c, (jsTrim l).head? = some c → isJsSpace c = false := by
  intro c hc
  unfold jsTrim at hc
  rw [List.head?_reverse] at hc
  have hne : (l.dropWhile isJsSpace).reverse.dropWhile isJsSpace ≠ [] := by
    intro hz; rw [hz] at hc; exact absurd hc (by simp)
  rw [getLast?_dropWhile _ _ hne, List.getLast?_reverse] at hc
  exact dropWhile_head_false _ _ c hc

/-- The last character of a trimmed string is not whitespace. -/
theorem jsTrim_getLast_not_space (l : List Char) :
    ∀ c, (jsTrim l).getLast? = some c → isJsSpace c = false := by
  intro c hc
  unfold jsTrim at hc
  rw [List.getLast?_reverse] at hc
  exact dropWhile_head_false _ _ c hc

/-- `jsTrim` is idempotent. -/
theorem jsTrim_idem (l : List Char) : jsTrim (jsTrim l) = jsTrim l :=
  jsTrim_eq_self (jsTrim_head_not_space l) (jsTrim_getLast_not_space l)

/-- `jsTrimStr` is idempotent. -/
theorem jsTrimStr_idem (s : String) : jsTrimStr (jsTrimStr s) = jsTrimStr s :=
  congrArg String.mk (jsTrim_idem s.data)

/-- A default chapter title is a fixed point of `trim` and is nonempty. -/
theorem chapterTitle_fixed (k : Nat) :
    jsTrimStr ("Chapter " ++ Nat.repr k) = "Chapter " ++ Nat.repr k ∧
    ("Chapter " ++ Nat.repr k) ≠ "" := by
  have hdata : ("Chapter " ++ Nat.repr k).data = "Chapter ".data ++ (Nat.repr k).data :=
    String.data_append _ _
  have hCh : "Chapter ".data = ['C', 'h', 'a', 'p', 't', 'e', 'r', ' '] := rfl
  constructor
  · have htrim : jsTrim ("Chapter " ++ Nat.repr k).data = ("Chapter " ++ Nat.repr k).data := by
      apply jsTrim_eq_self
      · intro c hc
        rw [hdata, hCh] at hc
        simp only [List.cons_append, List.head?_cons, Option.some.injEq] at hc
        rw [← hc]
        rfl
      · intro c hc
        rw [hdata, List.getLast?_append] at hc
        rcases repr_getLast_digit k with ⟨d, hd, hlast⟩
        rw [hlast] at hc
        simp only [Option.or_some, Option.some.injEq] at hc
        rw [← hc]
        exact digitChar_not_space hd
    calc jsTrimStr ("Chapter " ++ Nat.repr k)
        = String.mk (jsTrim ("Chapter " ++ Nat.repr k).data) := rfl
      _ = String.mk ("Chapter " ++ Nat.repr k).data := by rw [htrim]
      _ = "Chapter " ++ Nat.repr k := rfl
  · intro h
    have := congrArg String.data h
    rw [hdata, hCh] at this
    exact absurd this (by simp)

/-! ### Claim C7: idempotence of `normalizeChapters` -/

/-- Every chapter emitted by the `normalizeChapters` loop has a trimmed,
nonempty title. -/
theorem fillChapters_titles {tc : Int} :
    ∀ {l : List SortedChapter} {lastStart : Option Int} {kept : Nat},
      ∀ c ∈ fillChapters tc l lastStart kept,
        jsTrimStr c.title = c.title ∧ c.title ≠ "" := by
  intro l
  induction l with
  | nil => intro lastStart kept c hc; exact absurd hc (by simp [fillChapters])
  | cons d rest ih =>
    intro lastStart kept c hc
    unfold fillChapters at hc
    by_cases hskip : lastStart = some d.startToken
    · rw [if_pos hskip] at hc
      exact ih c hc
    · rw [if_neg hskip] at hc
      rcases List.mem_cons.mp hc with rfl | hc
      · dsimp only
        by_cases ht : jsTrimStr d.title = ""
        · rw [if_pos ht]
          exact chapterTitle_fixed (kept + 1)
        · rw [if_neg ht]
          exact ⟨jsTrimStr_idem d.title, ht⟩
      · exact ih c hc

/-- Emitted chapters of the `normalizeChapters` loop carry strictly
increasing `startToken`s, each above the `lastStart` accumulator. -/
theorem fillChapters_pairwise {tc : Int} :
    ∀ {l : List SortedChapter} {lastStart : Option Int} {kept : Nat},
      l.Pairwise (fun a b => a.startToken ≤ b.startToken) →
      (∀ d ∈ l, ∀ s0, lastStart = some s0 → s0 ≤ d.startToken) →
      (∀ c ∈ fillChapters tc l lastStart kept, ∀ s0, lastStart = some s0 →
          ∃ x, c.startToken = some x ∧ s0 < x) ∧
      (fillChapters tc l lastStart kept).Pairwise
        (fun a b => ∃ x y, a.startToken = some x ∧ b.startToken = some y ∧ x < y) := by
  intro l
  induction l with
  | nil =>
    intro lastStart kept _ _
    exact ⟨fun c hc => absurd hc (by simp [fillChapters]), by simp [fillChapters]⟩
  | cons d rest ih =>
    intro lastStart kept hpair hlb
    rcases List.pairwise_cons.mp hpair with ⟨hd, hrest⟩
    show (∀ c ∈ (if lastStart = some d.startToken then _ else _), _) ∧
      List.Pairwise _ (if lastStart = some d.startToken then _ else _)
    by_cases hskip : lastStart = some d.startToken
    · rw [if_pos hskip]
      exact ih hrest fun e he s0 hs0 => by
        rw [hskip] at hs0
        injection hs0 with hs0
        rw [← hs0]
        exact hd e he
    · rw [if_neg hskip]
      have hres := @ih (some d.startToken) (kept + 1) hrest
        fun e he s0 hs0 => by
          injection hs0 with hs0
          rw [← hs0]
          exact hd e he
      constructor
      · intro c hc s0 hs0
        rcases List.mem_cons.mp hc with rfl | hc
        · refine ⟨d.startToken, rfl, ?_⟩
          have hle := hlb d (by simp) s0 hs0
          have hne : s0 ≠ d.startToken := by
            intro hz
            rw [hz] at hs0
            exact hskip hs0
          omega
        · rcases hres.1 c hc d.startToken rfl with ⟨x, hx1, hx2⟩
          have hle := hlb d (by simp) s0 hs0
          exact ⟨x, hx1, by omega⟩
      · refine List.pairwise_cons.mpr ⟨?_, hres.2⟩
        intro b hb
        rcases hres.1 b hb d.startToken rfl with ⟨x, hx1, hx2⟩
        exact ⟨d.startToken, x, rfl, hx1, hx2⟩

/-- Every chapter output by `normalizeChapters` (for a positive token count)
has finite fields with `0 ≤ start ≤ tokenCount - 1` and
`start + 1 ≤ end ≤ tokenCount`. -/
theorem normalizeChapters_mem_wf {chapters : List ChapterMeta} {tc : Int} (htc : 0 < tc) :
    ∀ c ∈ normalizeChapters chapters tc,
      ∃ s e, c.startToken = some s ∧ c.endToken = some e ∧
        0 ≤ s ∧ s ≤ tc - 1 ∧ s + 1 ≤ e ∧ e ≤ tc := by
  intro c hc
  unfold normalizeChapters at hc
  by_cases hg : chapters = [] ∨ tc ≤ 0
  · rw [if_pos hg] at hc
    exact absurd hc (by simp)
  · rw [if_neg hg] at hc
    rcases fillChapters_mem hc with ⟨pre, mid, suf, hl, hs, he⟩
    have hmid : mid ∈ sortChapters (chapters.filterMap (clampChapter tc)) := by
      rw [hl]; simp
    have hrange := sorted_clamped_range htc chapters hmid
    refine ⟨mid.startToken, specEffectiveEnd tc mid suf, hs, he, hrange.1, hrange.2.1, ?_, ?_⟩
    · exact le_max_left _ _
    · have h1 : min tc (if mid.endToken = 0 then nextStartOr tc suf else mid.endToken) ≤ tc :=
        min_le_left _ _
      have h2 : mid.startToken + 1 ≤ tc := by omega
      exact max_le h2 h1

/-- A list of chapters that is already in normal form (finite in-range
fields, strictly sorted starts, trimmed nonempty titles) is a fixed point of
the `normalizeChapters` loop applied to its clamp image. -/
theorem fillChapters_clamp_fixed {tc : Int} (htc : 0 < tc) :
    ∀ (m : List ChapterMeta) (lastStart : Option Int) (kept : Nat),
      (∀ c ∈ m, ∃ s e, c.startToken = some s ∧ c.endToken = some e ∧
        0 ≤ s ∧ s ≤ tc - 1 ∧ s + 1 ≤ e ∧ e ≤ tc) →
      (∀ c ∈ m, jsTrimStr c.title = c.title ∧ c.title ≠ "") →
      m.Pairwise (fun a b => ∃ x y, a.startToken = some x ∧ b.startToken = some y ∧ x < y) →
      (∀ c ∈ m, ∀ s0, lastStart = some s0 → ∀ x, c.startToken = some x → s0 < x) →
      fillChapters tc (m.filterMap (clampChapter tc)) lastStart kept = m := by
  intro m
  induction m with
  | nil => intro lastStart kept _ _ _ _; rfl
  | cons c rest ih =>
    intro lastStart kept h1 h3 hp hlb
    rcases h1 c (by simp) with ⟨s, e, hcs, hce, hs0, hs1, he1, he2⟩
    have hclamp : clampChapter tc c = some ⟨c.title, s, e⟩ := by
      unfold clampChapter
      rw [hcs, hce]
      have h1' : max 0 (min (tc - 1) s) = s := by omega
      have h2' : max 0 (min tc e) = e := by omega
      dsimp only
      rw [h1', h2']
    rw [List.filterMap_cons, hclamp]
    unfold fillChapters
    have hskip : lastStart ≠ some s := by
      intro hz
      have := hlb c (by simp) s hz s hcs
      omega
    rw [if_neg (by simpa using hskip)]
    have hene : ¬(e = 0) := by omega
    rcases List.pairwise_cons.mp hp with ⟨hcrest, hprest⟩
    have htail : fillChapters tc (rest.filterMap (clampChapter tc)) (some s) (kept + 1) = rest := by
      apply ih
      · exact fun d hd => h1 d (by simp [hd])
      · exact fun d hd => h3 d (by simp [hd])
      · exact hprest
      · intro d hd s0 hs0 x hx
        injection hs0 with hs0
        rcases hcrest d hd with ⟨x1, y1, hx1, hy1, hlt⟩
        rw [hcs] at hx1
        injection hx1 with hx1
        rw [hy1] at hx
        injection hx with hx
        omega
    show ({ title := _, startToken := some s, endToken := _ } : ChapterMeta) :: _ = c :: rest
    rcases h3 c (by simp) with ⟨ht1, ht2⟩
    have htitle : (if jsTrimStr c.title = "" then "Chapter " ++ Nat.repr (kept + 1)
        else jsTrimStr c.title) = c.title := by
      rw [ht1, if_neg ht2]
    have hend : max (s + 1) (min tc (if e = 0 then
        (match rest.filterMap (clampChapter tc) with
         | [] => tc
         | next :: _ => next.startToken) else e)) = e := by
      rw [if_neg hene]
      omega
    rw [htail]
    have hceta : c = { title := c.title, startToken := some s, endToken := some e } := by
      cases c
      simp only at hcs hce
      rw [hcs, hce]
    congr 1
    rw [htitle, hend]
    exact hceta.symm

/-- A list in normal form is a fixed point of `normalizeChapters`. -/
theorem normalizeChapters_fixed {tc : Int} (htc : 0 < tc) (m : List ChapterMeta)
    (h1 : ∀ c ∈ m, ∃ s e, c.startToken = some s ∧ c.endToken = some e ∧
      0 ≤ s ∧ s ≤ tc - 1 ∧ s + 1 ≤ e ∧ e ≤ tc)
    (h3 : ∀ c ∈ m, jsTrimStr c.title = c.title ∧ c.title ≠ "")
    (hp : m.Pairwise fun a b => ∃ x y, a.startToken = some x ∧ b.startToken = some y ∧ x < y) :
    normalizeChapters m tc = m := by
  cases m with
  | nil =>
    unfold normalizeChapters
    rw [if_pos (Or.inl rfl)]
  | cons c0 rest0 =>
    unfold normalizeChapters
    rw [if_neg (not_or.mpr ⟨by simp, by omega⟩)]
    have hsort : sortChapters ((c0 :: rest0).filterMap (clampChapter tc))
        = (c0 :: rest0).filterMap (clampChapter tc) := by
      apply sortChapters_eq_self
      rw [List.pairwise_filterMap]
      apply List.Pairwise.imp_of_mem ?_ hp
      intro a b ha hb hab x hx y hy
      rcases hab with ⟨xa, yb, hxa, hyb, hlt⟩
      rcases h1 a ha with ⟨sa, ea, hsa, hea, hra⟩
      rcases h1 b hb with ⟨sb, eb, hsb, heb, hrb⟩
      have hxa' : xa = sa := by
        rw [hsa] at hxa
        injection hxa with h
        exact h.symm
      have hyb' : yb = sb := by
        rw [hsb] at hyb
        injection hyb with h
        exact h.symm
      have hax : clampChapter tc a = some ⟨a.title, sa, ea⟩ := by
        unfold clampChapter
        rw [hsa, hea]
        dsimp only
        rw [show max 0 (min (tc - 1) sa) = sa by omega,
          show max 0 (min tc ea) = ea by omega]
      have hbx : clampChapter tc b = some ⟨b.title, sb, eb⟩ := by
        unfold clampChapter
        rw [hsb, heb]
        dsimp only
        rw [show max 0 (min (tc - 1) sb) = sb by omega,
          show max 0 (min tc eb) = eb by omega]
      rw [hax] at hx
      rw [hbx] at hy
      have hx2 := Option.mem_some_iff.mp hx
      have hy2 := Option.mem_some_iff.mp hy
      rw [← hx2, ← hy2]
      show sa ≤ sb
      omega
    rw [hsort]
    exact fillChapters_clamp_fixed htc (c0 :: rest0) none 0 h1 h3 hp
      fun c hc s0 hs0 => absurd hs0 (by simp)

/-- Claim C7: `normalizeChapters` is idempotent — normalizing an
already-normalized chapter list returns it unchanged, element for
element. -/
theorem normalizeChapters_idem (chapters : List ChapterMeta) (tc : Int) :
    normalizeChapters (normalizeChapters chapters tc) tc =
      normalizeChapters chapters tc := by
  by_cases hg : chapters = [] ∨ tc ≤ 0
  · have h0 : normalizeChapters chapters tc = [] := by
      unfold normalizeChapters
      rw [if_pos hg]
    rw [h0]
    unfold normalizeChapters
    rw [if_pos (Or.inl rfl)]
  · push_neg at hg
    have htc : 0 < tc := by omega
    have hne : ¬(chapters = [] ∨ tc ≤ 0) := not_or.mpr ⟨hg.1, by omega⟩
    have hout : normalizeChapters chapters tc =
        fillChapters tc (sortChapters (chapters.filterMap (clampChapter tc))) none 0 := by
      unfold normalizeChapters
      rw [if_neg hne]
    apply normalizeChapters_fixed htc
    · exact normalizeChapters_mem_wf htc
    · intro c hc
      rw [hout] at hc
      exact fillChapters_titles c hc
    · rw [hout]
      exact (fillChapters_pairwise (sortChapters_pairwise _)
        fun d hd s0 hs0 => absurd hs0 (by simp)).2

/-! ### Claim C6: `findChapterIndex` -/

/-- Invariant of the `findChapterIndex` loop: with the window `[low, high]`,
everything left of `low` satisfying the probe, everything right of `high`
failing it, and `best` tracking the last success, the loop returns
`low' - 1` (or `0`) for the final split point `low'`, which separates the
successes from the failures.  The fuel only needs to cover the window
size. -/
theorem findLoop_invariant (chapters : List ChapterMeta) (idx : Int)
    (A : Nat → Bool)
    (hA : ∀ i : Nat, A i = chapterLeAt chapters i idx)
    (hmono : ∀ i j : Nat, i ≤ j → A j = true → A i = true) :
    ∀ (fuel : Nat) (low high best : Int),
      0 ≤ low → low ≤ high + 1 → high ≤ (chapters.length : Int) - 1 →
      (∀ i : Int, 0 ≤ i → i < low → A i.toNat = true) →
      (∀ i : Int, high < i → i ≤ (chapters.length : Int) - 1 → A i.toNat = false) →
      best = (if low = 0 then 0 else low - 1) →
      (high + 1 - low).toNat ≤ fuel →
      ∃ low' : Int,
        findLoop chapters idx fuel low high best = (if low' = 0 then 0 else low' - 1) ∧
        0 ≤ low' ∧ low' ≤ (chapters.length : Int) ∧
        (∀ i : Int, 0 ≤ i → i < low' → A i.toNat = true) ∧
        (∀ i : Int, low' ≤ i → i ≤ (chapters.length : Int) - 1 → A i.toNat = false) := by
  intro fuel
  induction fuel with
  | zero =>
    intro low high best h0 h1 h2 htr hfa hbest hfuel
    refine ⟨low, ?_, h0, by omega, htr, fun i hi1 hi2 => hfa i (by omega) hi2⟩
    exact hbest
  | succ fuel ih =>
    intro low high best h0 h1 h2 htr hfa hbest hfuel
    have hstep : findLoop chapters idx (fuel + 1) low high best =
        if low ≤ high then
          (if chapterLeAt chapters ((low + high) / 2).toNat idx then
            findLoop chapters idx fuel ((low + high) / 2 + 1) high ((low + high) / 2)
          else findLoop chapters idx fuel low ((low + high) / 2 - 1) best)
        else best := rfl
    by_cases hlh : low ≤ high
    · rw [hstep, if_pos hlh]
      have hmid1 : low ≤ (low + high) / 2 := by omega
      have hmid2 : (low + high) / 2 ≤ high := by omega
      by_cases hcl : chapterLeAt chapters ((low + high) / 2).toNat idx
      · rw [if_pos hcl]
        apply ih ((low + high) / 2 + 1) high ((low + high) / 2)
          (by omega) (by omega) h2
        · intro i hi1 hi2
          apply hmono i.toNat ((low + high) / 2).toNat (by omega)
          rw [hA]
          exact hcl
        · exact hfa
        · rw [if_neg (by omega)]
          omega
        · omega
      · rw [if_neg hcl]
        apply ih low ((low + high) / 2 - 1) best h0 (by omega) (by omega) htr
        · intro i hi1 hi2
          by_cases hih : high < i
          · exact hfa i hih hi2
          · cases hAi : A i.toNat with
            | false => rfl
            | true =>
              exfalso
              apply hcl
              rw [← hA]
              exact hmono ((low + high) / 2).toNat i.toNat (by omega) hAi
        · exact hbest
        · omega
    · rw [hstep, if_neg hlh]
      refine ⟨low, hbest, h0, by omega, htr, fun i hi1 hi2 => hfa i (by omega) hi2⟩

/-- Claim C6: `findChapterIndex` returns `-1` exactly on the empty list;
on a nonempty list sorted ascending by `startToken` it returns the greatest
index whose `startToken` is at most `tokenIndex` (`0` when no chapter starts
at or before it), and its result is monotone in `tokenIndex`. -/
theorem findChapterIndex_spec (chapters : List ChapterMeta) (starts : List Int)
    (idx idx2 : Int)
    (hmap : chapters.map ChapterMeta.startToken = starts.map some)
    (hsorted : starts.Pairwise (· ≤ ·))
    (hle : idx ≤ idx2) :
    (findChapterIndex chapters idx = -1 ↔ chapters = []) ∧
    (chapters ≠ [] →
      ((∃ i, i < starts.length ∧ starts.getD i 0 ≤ idx) →
        ∃ r : Nat, findChapterIndex chapters idx = (r : Int) ∧ r < starts.length ∧
          starts.getD r 0 ≤ idx ∧
          ∀ j, j < starts.length → starts.getD j 0 ≤ idx → j ≤ r) ∧
      ((¬∃ i, i < starts.length ∧ starts.getD i 0 ≤ idx) →
        findChapterIndex chapters idx = 0)) ∧
    findChapterIndex chapters idx ≤ findChapterIndex chapters idx2 := by
  have hlen : starts.length = chapters.length := by
    have := congrArg List.length hmap
    simpa using this.symm
  have hchar : ∀ (q : Int) (i : Nat), chapterLeAt chapters i q = true ↔
      i < starts.length ∧ starts.getD i 0 ≤ q := by
    intro q i
    by_cases hi : i < starts.length
    · have hmapi := congrArg (fun l => l[i]?) hmap
      simp only [List.getElem?_map] at hmapi
      have hsi : starts[i]? = some starts[i] := List.getElem?_eq_getElem hi
      cases hc : chapters[i]? with
      | none =>
        rw [hc, hsi] at hmapi
        exact absurd hmapi (by simp)
      | some c =>
        rw [hc, hsi] at hmapi
        have hcs : c.startToken = some starts[i] := by
          simpa using hmapi
        unfold chapterLeAt
        rw [List.get?_eq_getElem?, hc]
        dsimp only
        rw [hcs]
        dsimp only
        rw [List.getD_eq_getElem?_getD, hsi]
        simp [hi]
    · have hc : chapters[i]? = none := List.getElem?_eq_none (by omega)
      unfold chapterLeAt
      rw [List.get?_eq_getElem?, hc]
      dsimp only
      constructor
      · intro h
        exact absurd h (by simp)
      · intro h
        exact absurd h.1 hi
  have hmono : ∀ (q : Int) (i j : Nat), i ≤ j →
      chapterLeAt chapters j q = true → chapterLeAt chapters i q = true := by
    intro q i j hij hj
    rcases (hchar q j).mp hj with ⟨hjlen, hjle⟩
    refine (hchar q i).mpr ⟨by omega, ?_⟩
    rcases Nat.lt_or_ge i j with hlt | hge
    · have := List.pairwise_iff_get.mp hsorted ⟨i, by omega⟩ ⟨j, hjlen⟩ hlt
      rw [List.getD_eq_getElem?_getD, List.getElem?_eq_getElem (by omega : i < starts.length)]
      rw [List.getD_eq_getElem?_getD, List.getElem?_eq_getElem hjlen] at hjle
      simp only [Option.getD_some] at hjle ⊢
      exact le_trans this hjle
    · have hij2 : i = j := by omega
      rw [hij2]
      exact hjle
  have hrun : ∀ q : Int, chapters ≠ [] →
      ∃ low' : Int,
        findChapterIndex chapters q = (if low' = 0 then 0 else low' - 1) ∧
        0 ≤ low' ∧ low' ≤ (chapters.length : Int) ∧
        (∀ i : Int, 0 ≤ i → i < low' → chapterLeAt chapters i.toNat q = true) ∧
        (∀ i : Int, low' ≤ i → i ≤ (chapters.length : Int) - 1 →
          chapterLeAt chapters i.toNat q = false) := by
    intro q hne
    have hlen0 : chapters.length ≠ 0 := by
      intro hz; exact hne (List.length_eq_zero.mp hz)
    have hfq : findChapterIndex chapters q =
        findLoop chapters q chapters.length 0 ((chapters.length : Int) - 1) 0 := by
      unfold findChapterIndex
      rw [if_neg hlen0]
    rcases findLoop_invariant chapters q (fun i => chapterLeAt chapters i q)
        (fun _ => rfl) (hmono q) chapters.length 0 ((chapters.length : Int) - 1) 0
        (by omega) (by omega) (by omega)
        (fun i hi1 hi2 => by omega)
        (fun i hi1 hi2 => by omega)
        (by rw [if_pos rfl]) (by omega) with
      ⟨low', hres, hl0, hllen, htr, hfa⟩
    exact ⟨low', by rw [hfq, hres], hl0, hllen, htr, hfa⟩
  refine ⟨?_, ?_, ?_⟩
  · constructor
    · intro hm1
      by_contra hne
      rcases hrun idx hne with ⟨low', hres, hl0, _, _, _⟩
      rw [hres] at hm1
      by_cases hz : low' = 0
      · rw [if_pos hz] at hm1; omega
      · rw [if_neg hz] at hm1; omega
    · intro hm
      subst hm
      rfl
  · intro hne
    rcases hrun idx hne with ⟨low', hres, hl0, hllen, htr, hfa⟩
    constructor
    · rintro ⟨i, hilen, hile⟩
      have hAi : chapterLeAt chapters i idx = true := (hchar idx i).mpr ⟨hilen, hile⟩
      have hlow0 : low' ≠ 0 := by
        intro hz
        have := hfa i (by omega) (by omega)
        rw [show ((i : Int)).toNat = i by omega] at this
        rw [hAi] at this
        exact Bool.true_eq_false.mp this
      refine ⟨(low' - 1).toNat, ?_, by omega, ?_, ?_⟩
      · rw [hres, if_neg hlow0]
        omega
      · have := htr (low' - 1) (by omega) (by omega)
        rcases (hchar idx (low' - 1).toNat).mp this with ⟨_, h2⟩
        exact h2
      · intro j hjlen hjle
        by_contra hgt
        have hjge : low' ≤ (j : Int) := by omega
        have := hfa j hjge (by omega)
        rw [show ((j : Int)).toNat = j by omega] at this
        rw [(hchar idx j).mpr ⟨hjlen, hjle⟩] at this
        exact Bool.true_eq_false.mp this
    · intro hnone
      have hlow0 : low' = 0 := by
        by_contra hz
        have := htr (low' - 1) (by omega) (by omega)
        rcases (hchar idx (low' - 1).toNat).mp this with ⟨ha, hb⟩
        exact hnone ⟨(low' - 1).toNat, ha, hb⟩
      rw [hres, if_pos hlow0]
  · by_cases hne : chapters = []
    · subst hne
      rfl
    · rcases hrun idx hne with ⟨l1, hres1, hl01, hllen1, htr1, hfa1⟩
      rcases hrun idx2 hne with ⟨l2, hres2, hl02, hllen2, htr2, hfa2⟩
      have hl12 : l1 ≤ l2 := by
        by_contra hgt
        have hi : l2 < l1 := by omega
        have hA1 := htr1 l2 (by omega) hi
        have hA2 := hfa2 l2 (by omega) (by omega)
        rcases (hchar idx l2.toNat).mp hA1 with ⟨ha, hb⟩
        have : chapterLeAt chapters l2.toNat idx2 = true :=
          (hchar idx2 l2.toNat).mpr ⟨ha, by omega⟩
        rw [this] at hA2
        exact Bool.true_eq_false.mp hA2
      rw [hres1, hres2]
      by_cases h1z : l1 = 0 <;> by_cases h2z : l2 = 0 <;>
        simp [h1z, h2z] <;> omega

/-- Witness for `findChapterIndex_spec` on a concrete sorted list. -/
theorem findChapterIndex_spec_witness :
    ([⟨"c1", some 0, some 10⟩, ⟨"c2", some 10, some 20⟩] : List ChapterMeta).map
        ChapterMeta.startToken = ([0, 10] : List Int).map some ∧
    ([0, 10] : List Int).Pairwise (· ≤ ·) ∧
    (findChapterIndex [⟨"c1", some 0, some 10⟩, ⟨"c2", some 10, some 20⟩] 5 = -1 ↔
      ([⟨"c1", some 0, some 10⟩, ⟨"c2", some 10, some 20⟩] : List ChapterMeta) = []) :=
  ⟨by decide, by decide,
   (findChapterIndex_spec [⟨"c1", some 0, some 10⟩, ⟨"c2", some 10, some 20⟩]
     [0, 10] 5 7 (by decide) (by decide) (by norm_num)).1⟩

/-! ### Claim C5: chunk save/load round-trip -/

/-- Chunk keys of one book are distinct across chunk indices. -/
theorem tokenChunkKey_inj {bookId : String} {i j : Nat}
    (h : tokenChunkKey bookId i = tokenChunkKey bookId j) : i = j := by
  unfold tokenChunkKey at h
  have hd := congrArg String.data h
  simp only [String.data_append] at hd
  have hdata : (Nat.repr i).data = (Nat.repr j).data :=
    List.append_cancel_left hd
  exact repr_inj_nat (congrArg String.mk hdata)

/-- Reading a chunk key after the sequential chunk writes of
`saveTokenChunks`: indices below the write count see their chunk, others see
the original store. -/
theorem save_foldl_lookup (store : Store) (bookId : String) (f : Nat → RawDoc) :
    ∀ (m k : Nat),
      ((List.range m).foldl (fun st i => setItem st (tokenChunkKey bookId i) (f i)) store)
        (tokenChunkKey bookId k) =
      if k < m then some (f k) else store (tokenChunkKey bookId k) := by
  intro m
  induction m with
  | zero =>
    intro k
    rw [if_neg (by omega)]
    rfl
  | succ m ih =>
    intro k
    rw [List.range_succ, List.foldl_append]
    simp only [List.foldl_cons, List.foldl_nil]
    show (if tokenChunkKey bookId k = tokenChunkKey bookId m then _ else _) = _
    by_cases hk : tokenChunkKey bookId k = tokenChunkKey bookId m
    · have hkm : k = m := tokenChunkKey_inj hk
      subst hkm
      rw [if_pos rfl, if_pos (by omega)]
    · rw [if_neg hk, ih k]
      by_cases hkm : k < m
      · rw [if_pos hkm, if_pos (by omega)]
      · have hk1 : ¬k < m + 1 := by
          intro hlt
          rcases Nat.lt_succ_iff_lt_or_eq.mp hlt with hlt2 | rfl
          · exact hkm hlt2
          · exact hk rfl
        rw [if_neg hkm, if_neg hk1]

/-- Ceiling count: `tokens.length ≤ chunkCount * chunkSize` and, when there
is at least one token, the last chunk index starts strictly inside the
list. -/
theorem chunkCount_bounds (n cs : Nat) (hcs : 1 ≤ cs) :
    n ≤ ((n + cs - 1) / cs) * cs ∧ (1 ≤ n → ((n + cs - 1) / cs - 1) * cs < n) := by
  have e := Nat.div_add_mod (n + cs - 1) cs
  have hr : (n + cs - 1) % cs < cs := Nat.mod_lt _ (by omega)
  by_cases hn : n = 0
  · subst hn
    have h0 : (cs - 1) / cs = 0 := Nat.div_eq_of_lt (by omega)
    simp [h0]
  · have hq : (n + cs - 1) / cs = (n - 1) / cs + 1 := by
      have hrw : n + cs - 1 = (n - 1) + cs := by omega
      rw [hrw, Nat.add_div_right _ (by omega)]
    rw [hq]
    have e2 := Nat.div_add_mod (n - 1) cs
    have hr2 : (n - 1) % cs < cs := Nat.mod_lt _ (by omega)
    constructor
    · have : ((n - 1) / cs + 1) * cs = ((n - 1) / cs) * cs + cs := by ring
      rw [this]
      have h3 : ((n - 1) / cs) * cs = cs * ((n - 1) / cs) := Nat.mul_comm _ _
      rw [h3]
      omega
    · intro _
      have h4 : ((n - 1) / cs + 1 - 1) * cs = cs * ((n - 1) / cs) := by
        rw [Nat.add_sub_cancel]
        exact Nat.mul_comm _ _
      rw [h4]
      omega

/-- Concatenating the `chunkSize`-slices in order reproduces the list. -/
theorem join_chunks (cs : Nat) (hcs : 1 ≤ cs) :
    ∀ (l : List String),
      ((List.range ((l.length + cs - 1) / cs)).map
        fun i => (l.drop (i * cs)).take cs).flatten = l := by
  have hcount : ∀ n : Nat, 1 ≤ n →
      (n + cs - 1) / cs = ((n - cs) + cs - 1) / cs + 1 := by
    intro n hn
    by_cases hbig : cs < n
    · have h1 : n + cs - 1 = ((n - cs) + cs - 1) + cs := by omega
      rw [h1, Nat.add_div_right _ (by omega)]
    · have h1 : (n + cs - 1) / cs = 1 := by
        rw [show n + cs - 1 = (n - 1) + cs from by omega, Nat.add_div_right _ (by omega)]
        rw [Nat.div_eq_of_lt (by omega : n - 1 < cs)]
      have h2 : n - cs = 0 := by omega
      rw [h1, h2]
      have h3 : (0 + cs - 1) / cs = 0 := Nat.div_eq_of_lt (by omega)
      rw [h3]
  suffices hgen : ∀ (n : Nat) (l : List String), l.length = n →
      ((List.range ((l.length + cs - 1) / cs)).map
        fun i => (l.drop (i * cs)).take cs).flatten = l by
    intro l
    exact hgen l.length l rfl
  intro n
  induction n using Nat.strong_induction_on with
  | _ n ih =>
    intro l hn
    subst hn
    by_cases hnil : l = []
    · subst hnil
      have h0 : (0 + cs - 1) / cs = 0 := Nat.div_eq_of_lt (by omega)
      simp [h0]
    · have hlen1 : 1 ≤ l.length := by
        cases l with
        | nil => exact absurd rfl hnil
        | cons a as => simp
      rw [hcount l.length hlen1]
      rw [List.range_succ_eq_map]
      simp only [List.map_cons, List.map_map, List.flatten_cons]
      have hhead : (l.drop (0 * cs)).take cs = l.take cs := by
        simp
      have htailcount : (l.length - cs) + cs - 1 = (l.drop cs).length + cs - 1 := by
        simp
      have htail :
          (List.map ((fun i => (l.drop (i * cs)).take cs) ∘ Nat.succ)
            (List.range (((l.length - cs) + cs - 1) / cs))).flatten = l.drop cs := by
        have hmapeq : ((fun i => (l.drop (i * cs)).take cs) ∘ Nat.succ)
            = fun i => ((l.drop cs).drop (i * cs)).take cs := by
          funext i
          show (l.drop ((i + 1) * cs)).take cs = ((l.drop cs).drop (i * cs)).take cs
          rw [List.drop_drop]
          congr 2
          ring
        rw [hmapeq]
        have hlt : (l.drop cs).length < l.length := by
          rw [List.length_drop]
          omega
        have hihres := ih (l.drop cs).length hlt (l.drop cs) rfl
        rw [htailcount]
        exact hihres
      calc ((l.drop (0 * cs)).take cs) ++ _ = l.take cs ++ _ := by rw [hhead]
        _ = l.take cs ++ l.drop cs := by rw [htail]
        _ = l := List.take_append_drop cs l

/-- The chunk count written by `saveTokenChunks` is the real ceiling
`⌈n / chunkSize⌉`. -/
theorem chunkCount_eq_ceil (n cs : Nat) (hcs : 1 ≤ cs) :
    (((n + cs - 1) / cs : Nat) : ℤ) = ⌈(n : ℚ) / (cs : ℚ)⌉ := by
  have hcsq : (0 : ℚ) < (cs : ℚ) := by
    exact_mod_cast Nat.lt_of_lt_of_le Nat.zero_lt_one hcs
  rcases chunkCount_bounds n cs hcs with ⟨hub, hlb⟩
  by_cases hn : n = 0
  · subst hn
    rw [Nat.zero_add, Nat.div_eq_of_lt (by omega)]
    simp
  · have hcnt1 : 1 ≤ (n + cs - 1) / cs := by
      rw [Nat.le_div_iff_mul_le (by omega)]
      omega
    symm
    rw [Int.ceil_eq_iff]
    constructor
    · rw [lt_div_iff hcsq]
      have hlb2 := hlb (by omega)
      obtain ⟨q, hq⟩ : ∃ q, (n + cs - 1) / cs = q + 1 :=
        ⟨(n + cs - 1) / cs - 1, by omega⟩
      rw [hq] at hlb2 ⊢
      have h4 : (q * cs : Nat) < n := by simpa using hlb2
      push_cast
      have h5 : (q : ℚ) * cs < n := by exact_mod_cast h4
      simpa using h5
    · rw [div_le_iff hcsq]
      exact_mod_cast hub

/-- Claim C5: for `chunkSize ≥ 1`, `saveTokenChunks` reports
`chunkCount = ⌈n / chunkSize⌉`, stores under chunk `i` exactly the slice
`tokens[i*chunkSize .. i*chunkSize+chunkSize)` (so each chunk except the
final one holds exactly `chunkSize` tokens and the final one the remainder),
every such chunk is returned by `loadTokenChunk`, and concatenating the
chunks for indices `0 .. chunkCount-1` in order reproduces the tokens. -/
theorem saveTokenChunks_roundtrip (store : Store) (bookId : String)
    (tokens : List String) (chunkSize : Nat) (hcs : 1 ≤ chunkSize) :
    ((saveTokenChunks store bookId tokens chunkSize).2.2 : ℤ)
        = ⌈(tokens.length : ℚ) / (chunkSize : ℚ)⌉ ∧
    (saveTokenChunks store bookId tokens chunkSize).2.1 = chunkSize ∧
    (∀ i : Nat, i < (saveTokenChunks store bookId tokens chunkSize).2.2 →
      loadTokenChunk (saveTokenChunks store bookId tokens chunkSize).1 bookId i =
        some (Json.arr (((tokens.drop (i * chunkSize)).take chunkSize).map Json.str))) ∧
    (∀ i : Nat, i + 1 < (saveTokenChunks store bookId tokens chunkSize).2.2 →
      ((tokens.drop (i * chunkSize)).take chunkSize).length = chunkSize) ∧
    (0 < (saveTokenChunks store bookId tokens chunkSize).2.2 →
      ((tokens.drop (((saveTokenChunks store bookId tokens chunkSize).2.2 - 1)
          * chunkSize)).take chunkSize).length =
        tokens.length -
          ((saveTokenChunks store bookId tokens chunkSize).2.2 - 1) * chunkSize) ∧
    ((List.range ((saveTokenChunks store bookId tokens chunkSize).2.2)).map
      fun i => (tokens.drop (i * chunkSize)).take chunkSize).flatten = tokens := by
  have hcnt : (saveTokenChunks store bookId tokens chunkSize).2.2
      = (tokens.length + chunkSize - 1) / chunkSize := rfl
  have hst : (saveTokenChunks store bookId tokens chunkSize).1
      = (List.range ((tokens.length + chunkSize - 1) / chunkSize)).foldl
          (fun st chunkIndex =>
            setItem st (tokenChunkKey bookId chunkIndex)
              (RawDoc.json (Json.arr
                (((tokens.drop (chunkIndex * chunkSize)).take chunkSize).map Json.str))))
          store := rfl
  rcases chunkCount_bounds tokens.length chunkSize hcs with ⟨hub, hlb⟩
  refine ⟨?_, rfl, ?_, ?_, ?_, ?_⟩
  · rw [hcnt]
    exact chunkCount_eq_ceil tokens.length chunkSize hcs
  · intro i hi
    rw [hcnt] at hi
    unfold loadTokenChunk
    rw [hst, save_foldl_lookup store bookId
      (fun chunkIndex => RawDoc.json (Json.arr
        (((tokens.drop (chunkIndex * chunkSize)).take chunkSize).map Json.str))), if_pos hi]
  · intro i hi
    rw [hcnt] at hi
    have hn1 : 1 ≤ tokens.length := by
      by_contra hz
      have h0 : tokens.length = 0 := by omega
      rw [h0, Nat.zero_add, Nat.div_eq_of_lt (by omega)] at hi
      omega
    have hlb2 := hlb hn1
    have hmul : (i + 1) * chunkSize ≤
        ((tokens.length + chunkSize - 1) / chunkSize - 1) * chunkSize :=
      Nat.mul_le_mul_right _ (by omega)
    have hir : (i + 1) * chunkSize = i * chunkSize + chunkSize := by ring
    rw [List.length_take, List.length_drop]
    omega
  · intro hpos
    rw [hcnt] at hpos ⊢
    have hn1 : 1 ≤ tokens.length := by
      by_contra hz
      have h0 : tokens.length = 0 := by omega
      rw [h0, Nat.zero_add, Nat.div_eq_of_lt (by omega)] at hpos
      omega
    have hlb2 := hlb hn1
    have hsplit : ((tokens.length + chunkSize - 1) / chunkSize) * chunkSize =
        ((tokens.length + chunkSize - 1) / chunkSize - 1) * chunkSize + chunkSize := by
      obtain ⟨q, hq⟩ : ∃ q, (tokens.length + chunkSize - 1) / chunkSize = q + 1 :=
        ⟨(tokens.length + chunkSize - 1) / chunkSize - 1, by omega⟩
      rw [hq, Nat.add_sub_cancel]
      ring
    rw [List.length_take, List.length_drop]
    omega
  · rw [hcnt]
    exact join_chunks chunkSize hcs tokens

/-- Witness for `saveTokenChunks_roundtrip` on three tokens and chunk size
two. -/
theorem saveTokenChunks_roundtrip_witness :
    1 ≤ 2 ∧ (saveTokenChunks (fun _ => none) "b" ["a", "b", "c"] 2).2.1 = 2 :=
  ⟨by norm_num,
   (saveTokenChunks_roundtrip (fun _ => none) "b" ["a", "b", "c"] 2 (by norm_num)).2.1⟩

/-! ### Tokenizer: whitespace never starts or continues a token -/

/-- A whitespace character belongs to none of the token character classes. -/
theorem space_not_class {c : Char} (h : isJsSpace c = true) :
    isWordChar c = false ∧ isJoiner c = false ∧ isPunctClose c = false ∧
    isCloser c = false ∧ isOpener c = false := by
  have h2 : c ∈ jsSpaceChars := by
    simpa [isJsSpace, List.contains] using h
  fin_cases h2 <;> decide

/-- `takeWhile` ignores a suffix whose first character fails the
predicate. -/
theorem takeWhile_append_not {p : Char → Bool} {x : Char} (hx : p x = false) :
    ∀ (l y : List Char), (l ++ x :: y).takeWhile p = l.takeWhile p := by
  intro l y
  induction l with
  | nil => simp [List.takeWhile_cons, hx]
  | cons c rest ih =>
    by_cases hc : p c
    · simp only [List.cons_append, List.takeWhile_cons, hc, if_true, ih]
    · simp only [List.cons_append, List.takeWhile_cons, hc]
      simp

/-- `dropWhile` passes such a suffix through unchanged. -/
theorem dropWhile_append_not {p : Char → Bool} {x : Char} (hx : p x = false) :
    ∀ (l y : List Char), (l ++ x :: y).dropWhile p = l.dropWhile p ++ x :: y := by
  intro l y
  induction l with
  | nil => simp [List.dropWhile_cons, hx]
  | cons c rest ih =>
    by_cases hc : p c
    · simp only [List.cons_append, List.dropWhile_cons, hc, if_true, ih]
    · simp only [List.cons_append, List.dropWhile_cons, hc]
      simp

/-- Unfolding step of `takeCompound` on a cons cell. -/
theorem takeCompound_cons_eq (c : Char) (rest : List Char) :
    takeCompound (c :: rest) =
      if isWordChar c then (c :: (takeCompound rest).1, (takeCompound rest).2)
      else if isJoiner c then
        (match rest with
         | [] => ([], [c])
         | r1 :: rest1 =>
           if isWordChar r1 then (c :: r1 :: (takeCompound rest1).1, (takeCompound rest1).2)
           else ([], c :: rest))
      else ([], c :: rest) := by
  cases rest <;> rfl

/-- `takeCompound` splits its input. -/
theorem takeCompound_append : ∀ l : List Char,
    (takeCompound l).1 ++ (takeCompound l).2 = l := by
  suffices hgen : ∀ (n : Nat) (l : List Char), l.length = n →
      (takeCompound l).1 ++ (takeCompound l).2 = l by
    intro l
    exact hgen l.length l rfl
  intro n
  induction n using Nat.strong_induction_on with
  | _ n ih =>
    intro l hn
    subst hn
    cases l with
    | nil => rfl
    | cons c rest =>
      rw [takeCompound_cons_eq]
      by_cases hw : isWordChar c
      · rw [if_pos hw]
        have := ih rest.length (by simp) rest rfl
        simpa using this
      · rw [if_neg hw]
        by_cases hj : isJoiner c
        · rw [if_pos hj]
          cases rest with
          | nil => rfl
          | cons r1 rest1 =>
            dsimp only
            by_cases hw1 : isWordChar r1
            · rw [if_pos hw1]
              have := ih rest1.length (by simp; omega) rest1 rfl
              simpa using this
            · rw [if_neg hw1]
              rfl
        · rw [if_neg hj]
          rfl

/-- A compound match beginning at a word character begins with it. -/
theorem takeCompound_cons_word {c : Char} {rest : List Char}
    (hw : isWordChar c = true) :
    (takeCompound (c :: rest)).1 = c :: (takeCompound rest).1 := by
  rw [takeCompound_cons_eq, if_pos hw]

/-- `takeCompound` never reads past a whitespace character. -/
theorem takeCompound_append_space {x : Char} (hx : isJsSpace x = true) :
    ∀ (l y : List Char),
      takeCompound (l ++ x :: y) =
        ((takeCompound l).1, (takeCompound l).2 ++ x :: y) := by
  have hxw : isWordChar x = false := (space_not_class hx).1
  have hxj : isJoiner x = false := (space_not_class hx).2.1
  suffices hgen : ∀ (n : Nat) (l : List Char), l.length = n → ∀ y,
      takeCompound (l ++ x :: y) =
        ((takeCompound l).1, (takeCompound l).2 ++ x :: y) by
    intro l y
    exact hgen l.length l rfl y
  intro n
  induction n using Nat.strong_induction_on with
  | _ n ih =>
    intro l hn y
    subst hn
    cases l with
    | nil =>
      rw [List.nil_append, takeCompound_cons_eq,
        if_neg (by simp [hxw]), if_neg (by simp [hxj])]
      rfl
    | cons c rest =>
      rw [List.cons_append, takeCompound_cons_eq, takeCompound_cons_eq]
      by_cases hw : isWordChar c
      · rw [if_pos hw, if_pos hw, ih rest.length (by simp) rest rfl y]
      · rw [if_neg hw, if_neg hw]
        by_cases hj : isJoiner c
        · rw [if_pos hj, if_pos hj]
          cases rest with
          | nil =>
            simp only [List.nil_append]
            rw [if_neg (by simp [hxw])]
            simp
          | cons r1 rest1 =>
            simp only [List.cons_append]
            by_cases hw1 : isWordChar r1
            · rw [if_pos hw1, if_pos hw1,
                ih rest1.length (by simp; omega) rest1 rfl y]
            · rw [if_neg hw1, if_neg hw1]
              simp
        · rw [if_neg hj, if_neg hj]
          rfl

/-- `matchToken` splits its input. -/
theorem matchToken_append (c : Char) (rest : List Char) :
    (matchToken c rest).1 ++ (matchToken c rest).2 = c :: rest := by
  unfold matchToken
  by_cases hw : isWordChar c
  · rw [if_pos hw]
    dsimp only
    rw [List.append_assoc, List.append_assoc, List.takeWhile_append_dropWhile,
      List.takeWhile_append_dropWhile]
    exact takeCompound_append _
  · rw [if_neg hw]
    by_cases ho : isOpener c
    · rw [if_pos ho]
      dsimp only
      exact List.takeWhile_append_dropWhile isOpener (c :: rest)
    · rw [if_neg ho]
      rfl

/-- A token produced by `matchToken` is nonempty. -/
theorem matchToken_fst_ne_nil (c : Char) (rest : List Char) :
    (matchToken c rest).1 ≠ [] := by
  unfold matchToken
  by_cases hw : isWordChar c
  · rw [if_pos hw]
    dsimp only
    rw [takeCompound_cons_word hw]
    simp
  · rw [if_neg hw]
    by_cases ho : isOpener c
    · rw [if_pos ho]
      simp [List.takeWhile_cons, ho]
    · rw [if_neg ho]
      simp

/-- `matchToken` consumes at least one character. -/
theorem matchToken_snd_length (c : Char) (rest : List Char) :
    (matchToken c rest).2.length ≤ rest.length := by
  have h := congrArg List.length (matchToken_append c rest)
  rw [List.length_append] at h
  have h3 : 0 < (matchToken c rest).1.length :=
    List.length_pos.mpr (matchToken_fst_ne_nil c rest)
  simp only [List.length_cons] at h
  omega

/-- `matchToken` never reads past a whitespace character. -/
theorem matchToken_append_space {x : Char} (hx : isJsSpace x = true)
    (c : Char) (rest y : List Char) :
    matchToken c (rest ++ x :: y) =
      ((matchToken c rest).1, (matchToken c rest).2 ++ x :: y) := by
  have hxp : isPunctClose x = false := (space_not_class hx).2.2.1
  have hxc : isCloser x = false := (space_not_class hx).2.2.2.1
  have hxo : isOpener x = false := (space_not_class hx).2.2.2.2
  unfold matchToken
  by_cases hw : isWordChar c
  · rw [if_pos hw]
    dsimp only
    have h1 : takeCompound (c :: (rest ++ x :: y)) =
        ((takeCompound (c :: rest)).1, (takeCompound (c :: rest)).2 ++ x :: y) := by
      have h2 := takeCompound_append_space hx (c :: rest) y
      rw [List.cons_append] at h2
      exact h2
    rw [h1]
    dsimp only
    rw [takeWhile_append_not hxp, dropWhile_append_not hxp,
      takeWhile_append_not hxc, dropWhile_append_not hxc]
    rw [if_pos hw]
  · rw [if_neg hw]
    by_cases ho : isOpener c
    · rw [if_pos ho]
      have h2 : c :: (rest ++ x :: y) = (c :: rest) ++ x :: y := rfl
      rw [h2, takeWhile_append_not hxo, dropWhile_append_not hxo]
      rw [if_neg hw, if_pos ho]
    · rw [if_neg ho]
      rw [if_neg hw, if_neg ho]

/-- Fuel irrelevance for the token scan: any fuel covering the input length
gives the same result. -/
theorem lexF_congr : ∀ (f1 f2 : Nat) (l : List Char),
    l.length ≤ f1 → l.length ≤ f2 → lexF f1 l = lexF f2 l := by
  intro f1
  induction f1 with
  | zero =>
    intro f2 l h1 h2
    cases l with
    | nil => cases f2 <;> rfl
    | cons c rest => simp at h1
  | succ f1 ih =>
    intro f2 l h1 h2
    cases l with
    | nil => cases f2 <;> rfl
    | cons c rest =>
      cases f2 with
      | zero => simp at h2
      | succ f2 =>
        simp only [lexF]
        simp only [List.length_cons] at h1 h2
        by_cases hc : isJsSpace c
        · rw [if_pos hc, if_pos hc]
          exact ih f2 rest (by omega) (by omega)
        · rw [if_neg hc, if_neg hc]
          congr 1
          exact ih f2 (matchToken c rest).2
            (le_trans (matchToken_snd_length c rest) (by omega))
            (le_trans (matchToken_snd_length c rest) (by omega))

/-- Scan step on whitespace: skipped. -/
theorem lex_cons_space {c : Char} (hc : isJsSpace c = true) (rest : List Char) :
    lex (c :: rest) = lex rest := by
  show lexF (rest.length + 1) (c :: rest) = lexF rest.length rest
  simp only [lexF, hc, if_true]

/-- Scan step on a non-whitespace character: one token is matched. -/
theorem lex_cons_token {c : Char} (hc : isJsSpace c = false) (rest : List Char) :
    lex (c :: rest) = (matchToken c rest).1 :: lex (matchToken c rest).2 := by
  show lexF (rest.length + 1) (c :: rest) = _
  simp only [lexF, hc, Bool.false_eq_true, if_false]
  congr 1
  exact lexF_congr rest.length (matchToken c rest).2.length (matchToken c rest).2
    (matchToken_snd_length c rest) (le_refl _)

/-- Tokens of the scan are nonempty and draw their characters from the
input. -/
theorem lex_tokens : ∀ (l : List Char), ∀ t ∈ lex l, t ≠ [] ∧ ∀ a ∈ t, a ∈ l := by
  suffices hgen : ∀ (n : Nat) (l : List Char), l.length = n →
      ∀ t ∈ lex l, t ≠ [] ∧ ∀ a ∈ t, a ∈ l by
    intro l
    exact hgen l.length l rfl
  intro n
  induction n using Nat.strong_induction_on with
  | _ n ih =>
    intro l hn t ht
    subst hn
    cases l with
    | nil => exact absurd ht (by simp [lex, lexF])
    | cons c rest =>
      by_cases hc : isJsSpace c
      · rw [lex_cons_space hc] at ht
        rcases ih rest.length (by simp) rest rfl t ht with ⟨h1, h2⟩
        exact ⟨h1, fun a ha => List.mem_cons_of_mem c (h2 a ha)⟩
      · rw [lex_cons_token (Bool.eq_false_iff.mpr hc)] at ht
        rcases List.mem_cons.mp ht with rfl | ht
        · refine ⟨matchToken_fst_ne_nil c rest, fun a ha => ?_⟩
          rw [← matchToken_append c rest]
          exact List.mem_append_left _ ha
        · have hlen := matchToken_snd_length c rest
          rcases ih (matchToken c rest).2.length (by simp; omega)
            (matchToken c rest).2 rfl t ht with ⟨h1, h2⟩
          refine ⟨h1, fun a ha => ?_⟩
          rw [← matchToken_append c rest]
          exact List.mem_append_right _ (h2 a ha)

/-- The scan distributes over a whitespace separator. -/
theorem lex_append_space {x : Char} (hx : isJsSpace x = true) :
    ∀ (l y : List Char), lex (l ++ x :: y) = lex l ++ lex y := by
  suffices hgen : ∀ (n : Nat) (l : List Char), l.length = n → ∀ y,
      lex (l ++ x :: y) = lex l ++ lex y by
    intro l y
    exact hgen l.length l rfl y
  intro n
  induction n using Nat.strong_induction_on with
  | _ n ih =>
    intro l hn y
    subst hn
    cases l with
    | nil =>
      rw [List.nil_append, lex_cons_space hx]
      rfl
    | cons c rest =>
      rw [List.cons_append]
      by_cases hc : isJsSpace c
      · rw [lex_cons_space hc, lex_cons_space hc, ih rest.length (by simp) rest rfl y]
      · have hc' : isJsSpace c = false := Bool.eq_false_iff.mpr hc
        rw [lex_cons_token hc', matchToken_append_space hx c rest y]
        dsimp only
        have hlen := matchToken_snd_length c rest
        rw [ih (matchToken c rest).2.length (by simp; omega) (matchToken c rest).2 rfl y]
        rw [lex_cons_token hc']
        rfl

/-- The scan of pure whitespace is empty. -/
theorem lex_all_space : ∀ (ws : List Char), (∀ c ∈ ws, isJsSpace c = true) →
    lex ws = [] := by
  intro ws
  induction ws with
  | nil => intro _; rfl
  | cons c rest ih =>
    intro h
    rw [lex_cons_space (h c (by simp))]
    exact ih fun a ha => h a (by simp [ha])

/-- Trailing whitespace does not change the scan. -/
theorem lex_append_allspace (l ws : List Char) (h : ∀ c ∈ ws, isJsSpace c = true) :
    lex (l ++ ws) = lex l := by
  cases ws with
  | nil => rw [List.append_nil]
  | cons x rest =>
    rw [lex_append_space (h x (by simp)) l rest,
      lex_all_space rest fun a ha => h a (by simp [ha])]
    rw [List.append_nil]

/-- Leading whitespace does not change the scan. -/
theorem lex_dropWhile_space (l : List Char) :
    lex (l.dropWhile isJsSpace) = lex l := by
  induction l with
  | nil => rfl
  | cons c rest ih =>
    by_cases hc : isJsSpace c
    · rw [List.dropWhile_cons, if_pos hc, ih, lex_cons_space hc]
    · rw [List.dropWhile_cons, if_neg hc]

/-- Trimming does not change the scan. -/
theorem lex_jsTrim (l : List Char) : lex (jsTrim l) = lex l := by
  unfold jsTrim
  have hsplit := List.takeWhile_append_dropWhile
    isJsSpace (l.dropWhile isJsSpace).reverse
  have hdecomp : l.dropWhile isJsSpace =
      ((l.dropWhile isJsSpace).reverse.dropWhile isJsSpace).reverse ++
        ((l.dropWhile isJsSpace).reverse.takeWhile isJsSpace).reverse := by
    have h2 := congrArg List.reverse hsplit
    rw [List.reverse_append, List.reverse_reverse] at h2
    exact h2.symm
  have hws : ∀ c ∈ ((l.dropWhile isJsSpace).reverse.takeWhile isJsSpace).reverse,
      isJsSpace c = true := by
    intro c hc
    exact List.mem_takeWhile_imp (List.mem_reverse.mp hc)
  calc lex ((l.dropWhile isJsSpace).reverse.dropWhile isJsSpace).reverse
      = lex (((l.dropWhile isJsSpace).reverse.dropWhile isJsSpace).reverse ++
          ((l.dropWhile isJsSpace).reverse.takeWhile isJsSpace).reverse) :=
        (lex_append_allspace _ _ hws).symm
    _ = lex (l.dropWhile isJsSpace) := by rw [← hdecomp]
    _ = lex l := lex_dropWhile_space l

/-- The paragraph split is never the empty list. -/
theorem splitGo_ne_nil : ∀ (l : List Char) (n : Nat), splitGo n l ≠ [] := by
  intro l
  induction l with
  | nil =>
    intro n
    simp only [splitGo]
    split <;> simp
  | cons c rest ih =>
    intro n
    simp only [splitGo]
    by_cases hc : c = '\n'
    · rw [if_pos hc]
      exact ih (n + 1)
    · rw [if_neg hc]
      cases hs : splitGo 0 rest with
      | nil => exact absurd hs (ih 0)
      | cons p ps =>
        split
        · rename_i heq
          simp at heq
        · rename_i q qs heq
          split <;> simp

/-- Step equation of `joinSepNl` on a two-or-more-element list. -/
theorem joinSepNl_cons_cons (p q : List Char) (ps : List (List Char)) :
    joinSepNl (p :: q :: ps) = p ++ [' ', '\n', ' '] ++ joinSepNl (q :: ps) := by
  rfl

/-- Prepending characters to the first piece prepends them to the join. -/
theorem joinSepNl_append_head (a p : List Char) (ps : List (List Char)) :
    joinSepNl ((a ++ p) :: ps) = a ++ joinSepNl (p :: ps) := by
  cases ps with
  | nil => rfl
  | cons q ps2 =>
    rw [joinSepNl_cons_cons, joinSepNl_cons_cons]
    simp [List.append_assoc]

/-- The newline-pair replacement is exactly the `" \n "`-join of the
paragraph pieces of the split on `/\n\n+/`, for any pending run count. -/
theorem collapseNl2Go_eq_joinSepNl : ∀ (l : List Char) (n : Nat),
    collapseNl2Go n l = joinSepNl (splitGo n l) := by
  intro l
  induction l with
  | nil =>
    intro n
    unfold collapseNl2Go
    simp only [runGo, splitGo]
    by_cases h2 : 2 ≤ n
    · rw [if_pos h2, if_pos h2]
      rfl
    · rw [if_neg h2, if_neg h2]
      rfl
  | cons c rest ih =>
    intro n
    unfold collapseNl2Go at ih ⊢
    simp only [runGo]
    by_cases hc : c = '\n'
    · rw [if_pos (by simpa using hc)]
      have hsplit : splitGo n (c :: rest) = splitGo (n + 1) rest := by
        simp only [splitGo]
        rw [if_pos hc]
      rw [hsplit]
      exact ih (n + 1)
    · rw [if_neg (by simpa using hc)]
      cases hs : splitGo 0 rest with
      | nil => exact absurd hs (splitGo_ne_nil rest 0)
      | cons p ps =>
        have hsplit : splitGo n (c :: rest) =
            if 2 ≤ n then [] :: (c :: p) :: ps
            else (List.replicate n '\n' ++ c :: p) :: ps := by
          simp only [splitGo]
          rw [if_neg hc, hs]
        rw [hsplit, ih 0, hs]
        by_cases h2 : 2 ≤ n
        · rw [if_pos h2, if_pos h2]
          rw [joinSepNl_cons_cons]
          have hcp : c :: p = [c] ++ p := rfl
          rw [hcp, joinSepNl_append_head]
          simp
        · rw [if_neg h2, if_neg h2]
          have hcp : List.replicate n '\n' ++ c :: p =
              (List.replicate n '\n' ++ [c]) ++ p := by simp
          rw [hcp, joinSepNl_append_head]
          simp

/-- Prepending a non-newline character preserves fixedness under the
newline-pair replacement. -/
theorem collapseNl2_cons_head {c : Char} (hc : ¬ c = '\n') {p : List Char}
    (hp : collapseNl2 p = p) : collapseNl2 (c :: p) = c :: p := by
  unfold collapseNl2 collapseNl2Go at hp ⊢
  simp only [runGo]
  rw [if_neg (by simpa using hc)]
  simpa using hp

/-- Prepending one newline and then a non-newline character preserves
fixedness under the newline-pair replacement. -/
theorem collapseNl2_nl_cons_head {c : Char} (hc : ¬ c = '\n') {p : List Char}
    (hp : collapseNl2 p = p) : collapseNl2 ('\n' :: c :: p) = '\n' :: c :: p := by
  unfold collapseNl2 collapseNl2Go at hp ⊢
  simp only [runGo]
  rw [if_pos (by simp), if_neg (by simpa using hc)]
  simpa using hp

/-- A run of at most one newline is fixed by the newline-pair replacement. -/
theorem collapseNl2_replicate_le_one {n : Nat} (hn : n ≤ 1) :
    collapseNl2 (List.replicate n '\n') = List.replicate n '\n' := by
  match n, hn with
  | 0, _ => rfl
  | 1, _ => rfl

/-- Every piece of the paragraph split is fixed by the newline-pair
replacement (pieces contain no two adjacent newlines). -/
theorem splitGo_pieces_fixed : ∀ (l : List Char) (n : Nat),
    ∀ p ∈ splitGo n l, collapseNl2 p = p := by
  intro l
  induction l with
  | nil =>
    intro n p hp
    simp only [splitGo] at hp
    by_cases h2 : 2 ≤ n
    · rw [if_pos h2] at hp
      rcases List.mem_cons.mp hp with rfl | hp2
      · rfl
      · rcases List.mem_cons.mp hp2 with rfl | hp3
        · rfl
        · exact absurd hp3 (List.not_mem_nil _)
    · rw [if_neg h2] at hp
      rcases List.mem_cons.mp hp with rfl | hp2
      · exact collapseNl2_replicate_le_one (by omega)
      · exact absurd hp2 (List.not_mem_nil _)
  | cons c rest ih =>
    intro n p hp
    by_cases hc : c = '\n'
    · have hsplit : splitGo n (c :: rest) = splitGo (n + 1) rest := by
        simp only [splitGo]
        rw [if_pos hc]
      rw [hsplit] at hp
      exact ih (n + 1) p hp
    · cases hs : splitGo 0 rest with
      | nil => exact absurd hs (splitGo_ne_nil rest 0)
      | cons q qs =>
        have hsplit : splitGo n (c :: rest) =
            if 2 ≤ n then [] :: (c :: q) :: qs
            else (List.replicate n '\n' ++ c :: q) :: qs := by
          simp only [splitGo]
          rw [if_neg hc, hs]
        rw [hsplit] at hp
        have hq : collapseNl2 q = q := ih 0 q (by rw [hs]; simp)
        by_cases h2 : 2 ≤ n
        · rw [if_pos h2] at hp
          rcases List.mem_cons.mp hp with rfl | hp2
          · rfl
          · rcases List.mem_cons.mp hp2 with rfl | hp3
            · exact collapseNl2_cons_head hc hq
            · exact ih 0 p (by rw [hs]; exact List.mem_cons_of_mem _ hp3)
        · rw [if_neg h2] at hp
          rcases List.mem_cons.mp hp with rfl | hp2
          · rcases (by omega : n = 0 ∨ n = 1) with rfl | rfl
            · simpa using collapseNl2_cons_head hc hq
            · simpa using collapseNl2_nl_cons_head hc hq
          · exact ih 0 p (by rw [hs]; exact List.mem_cons_of_mem _ hp2)

/-- The newline-to-space replacement distributes over append. -/
theorem nlToSpace_append (a b : List Char) :
    nlToSpace (a ++ b) = nlToSpace a ++ nlToSpace b :=
  List.map_append _ a b

/-- The newline-to-space replacement leaves no newline in its output. -/
theorem nl_not_mem_nlToSpace (l : List Char) : '\n' ∉ nlToSpace l := by
  intro hmem
  rcases List.mem_map.mp hmem with ⟨a, _, ha⟩
  by_cases h : a = '\n'
  · rw [if_pos h] at ha
    exact absurd ha (by decide)
  · rw [if_neg h] at ha
    exact h ha

/-- The scan of the space-normalised `" \n "`-join of pieces is the
concatenation of the scans of the space-normalised pieces. -/
theorem lex_nlToSpace_joinSepNl : ∀ (ps : List (List Char)),
    lex (nlToSpace (joinSepNl ps)) = (ps.map fun q => lex (nlToSpace q)).flatten := by
  intro ps
  induction ps with
  | nil => rfl
  | cons p ps ih =>
    cases ps with
    | nil => simp [joinSepNl]
    | cons q ps2 =>
      rw [joinSepNl_cons_cons, List.append_assoc, nlToSpace_append]
      have hsep : nlToSpace ([' ', '\n', ' '] ++ joinSepNl (q :: ps2)) =
          ' ' :: ' ' :: ' ' :: nlToSpace (joinSepNl (q :: ps2)) := rfl
      have hsp : isJsSpace ' ' = true := by decide
      rw [hsep, lex_append_space hsp, lex_cons_space hsp, lex_cons_space hsp, ih]
      simp

/-- The empty-check of `tokenizeSegment` is redundant: its token output is
always the scan of the space-normalised segment. -/
theorem tokenizeSegmentCore_eq_lex (s : List Char) :
    tokenizeSegmentCore s = lex (nlToSpace (collapseNl2 s)) := by
  unfold tokenizeSegmentCore
  dsimp only
  by_cases h : jsTrim (nlToSpace (collapseNl2 s)) = []
  · rw [if_pos h, ← lex_jsTrim, h]
    rfl
  · rw [if_neg h, lex_jsTrim]

/-- Tokenizing a whole normalised text equals tokenizing its paragraph
pieces separately and concatenating. -/
theorem tokenizeSegmentCore_flatten (s : List Char) :
    tokenizeSegmentCore s = ((splitParas s).map tokenizeSegmentCore).flatten := by
  conv_lhs => rw [tokenizeSegmentCore_eq_lex]
  rw [show collapseNl2 s = collapseNl2Go 0 s from rfl, collapseNl2Go_eq_joinSepNl,
    lex_nlToSpace_joinSepNl]
  show ((splitParas s).map fun q => lex (nlToSpace q)).flatten = _
  congr 1
  apply List.map_congr_left
  intro p hp
  rw [tokenizeSegmentCore_eq_lex p, splitGo_pieces_fixed s 0 p hp]

/-- No token of `tokenizeSegment` is the paragraph-marker token. -/
theorem tokenizeSegmentCore_ne_marker (s : List Char) :
    ∀ t ∈ tokenizeSegmentCore s, ¬ t = ['\n'] := by
  intro t ht heq
  rw [tokenizeSegmentCore_eq_lex] at ht
  rcases lex_tokens _ t ht with ⟨-, hchars⟩
  exact nl_not_mem_nlToSpace _ (hchars '\n' (by rw [heq]; simp))

/-- Filtering the marker tokens back out of the marker-join recovers the
concatenation of the blocks, when no block contains a marker token. -/
theorem filter_joinWithMarkers : ∀ (bs : List (List (List Char))),
    (∀ b ∈ bs, ∀ t ∈ b, ¬ t = ['\n']) →
    (joinWithMarkers bs).filter (fun t => decide (¬ t = ['\n'])) = bs.flatten := by
  intro bs
  induction bs with
  | nil => intro _; rfl
  | cons b rest ih =>
    intro h
    have hb : b.filter (fun t => decide (¬ t = ['\n'])) = b :=
      List.filter_eq_self.mpr fun t ht => by simpa using h b (by simp) t ht
    cases rest with
    | nil =>
      show b.filter _ = ([b] : List (List (List Char))).flatten
      rw [List.flatten_cons, List.flatten_nil, List.append_nil]
      exact hb
    | cons b2 rest2 =>
      have hjoin : joinWithMarkers (b :: b2 :: rest2) =
          b ++ [['\n']] ++ joinWithMarkers (b2 :: rest2) := rfl
      rw [hjoin, List.filter_append, List.filter_append, hb]
      have hm : (([['\n']] : List (List Char)).filter
          fun t => decide (¬ t = ['\n'])) = [] := by decide
      rw [hm, List.append_nil,
        ih fun b3 hb3 => h b3 (List.mem_cons_of_mem _ hb3)]
      simp

/-- Filtering the marker tokens out of the chunked tokenizer's output gives
exactly the synchronous tokenizer's output. -/
theorem tokenizeLargeTextCore_filter (text : List Char) :
    (tokenizeLargeTextCore text).filter (fun t => decide (¬ t = ['\n'])) =
      tokenizeCore text := by
  unfold tokenizeLargeTextCore tokenizeCore
  dsimp only
  by_cases h : normalizeText text = []
  · rw [if_pos h, h]
    rfl
  · rw [if_neg h, filter_joinWithMarkers]
    · exact (tokenizeSegmentCore_flatten (normalizeText text)).symm
    · intro b hb t ht
      rcases List.mem_map.mp hb with ⟨q, _, rfl⟩
      exact tokenizeSegmentCore_ne_marker q t ht

/-- Counterexample to C1: on `"A\n\nB"` the synchronous `tokenize` returns
`["A", "B"]` while `tokenizeLargeText` returns `["A", "\n", "B"]` - the
chunked variant inserts a paragraph-marker token that the synchronous
variant erases, so the two token sequences differ. -/
theorem tokenize_vs_tokenizeLargeText_cex :
    tokenize "A\n\nB" = ["A", "B"] ∧
    tokenizeLargeText "A\n\nB" = ["A", "\n", "B"] ∧
    ¬ tokenizeLargeText "A\n\nB" = tokenize "A\n\nB" := by decide

/-- C1 (amended). For every input string, the chunked tokenizer
`tokenizeLargeText` produces exactly the token sequence of the synchronous
`tokenize` interleaved with paragraph-marker `"\n"` tokens: filtering the
marker tokens out of `tokenizeLargeText`'s output yields `tokenize`'s
output, token for token.  (The unamended claim - literal equality of the
two sequences - is refuted by `tokenize_vs_tokenizeLargeText_cex`.) -/
theorem tokenizeLargeText_refines_tokenize (text : String) :
    (tokenizeLargeText text).filter (fun s => decide (¬ s = "\n")) = tokenize text := by
  unfold tokenizeLargeText tokenize
  rw [List.filter_map]
  have hpred : ∀ t ∈ tokenizeLargeTextCore text.data,
      ((fun s => decide (¬ s = "\n")) ∘ fun t : List Char => (⟨t⟩ : String)) t =
        (fun t => decide (¬ t = ['\n'])) t := by
    intro t _
    simp only [Function.comp_apply]
    have hiff : (⟨t⟩ : String) = "\n" ↔ t = ['\n'] := by
      constructor
      · intro h2
        have h3 := congrArg String.data h2
        simpa using h3
      · intro h2
        rw [h2]
    exact decide_eq_decide.mpr (not_congr hiff)
  rw [List.filter_congr hpred, tokenizeLargeTextCore_filter]

/-- Counterexample to C2: `tokenize "Alpha first.\n\nBeta second."` returns
four tokens, not five - the synchronous tokenizer erases the blank-line
paragraph break instead of emitting a `"\n"` marker token. -/
theorem tokenize_marker_count_cex :
    ¬ tokenize "Alpha first.\n\nBeta second." =
      ["Alpha", "first.", "\n", "Beta", "second."] := by decide

/-- C2 (amended). `tokenize "Alpha first.\n\nBeta second."` returns exactly
the four tokens `"Alpha"`, `"first."`, `"Beta"`, `"second."` - no
paragraph-marker token; and for every input text (with or without
blank-line-separated paragraphs) the output of `tokenize` contains zero
paragraph-marker `"\n"` tokens. -/
theorem tokenize_blank_line_tokens :
    tokenize "Alpha first.\n\nBeta second." = ["Alpha", "first.", "Beta", "second."] ∧
    ∀ text : String, ¬ ("\n" : String) ∈ tokenize text := by
  refine ⟨by decide, ?_⟩
  intro text hmem
  unfold tokenize at hmem
  rcases List.mem_map.mp hmem with ⟨t, ht, hmk⟩
  have ht2 : t = ['\n'] := by
    have h2 := congrArg String.data hmk
    simpa using h2
  have ht3 : t ∈ tokenizeSegmentCore (normalizeText text.data) := by
    unfold tokenizeCore at ht
    exact ht
  exact tokenizeSegmentCore_ne_marker (normalizeText text.data) t ht3 ht2
